import Mathlib

/-!
Verification development for the SG&A workbook splitter.

The Python source (modules `sga_splitter.detect`, `sga_splitter.core`,
`sga_splitter.exporters`, `sga_splitter.io_utils`, and the standalone
`export_commit_draft_clone.py` script) is shallowly embedded below.
Text processing is modelled over `List Char` (ASCII-level semantics of the
Python `str` operations used by the code), worksheet cells by an explicit
`CellValue` type covering the value shapes the code distinguishes
(`None`, strings, integers), and the pandas/openpyxl scans by structural
recursion over lists.
-/

/-! ### Character and string utilities (Python `str` operations) -/

/-- ASCII whitespace recognised by Python's `str.strip`, `\s` regex class. -/
def isPySpace (c : Char) : Bool :=
  c == ' ' || c == '\t' || c == '\n' || c == '\r' || c == '\x0b' || c == '\x0c'

/-- Python word character (`\w`, ASCII fragment): letters, digits, underscore. -/
def isWordChar (c : Char) : Bool :=
  c.isAlphanum || c == '_'

/-- Strip characters satisfying `p` from both ends (Python `str.strip(chars)`). -/
def stripBy (p : Char → Bool) (l : List Char) : List Char :=
  ((l.dropWhile p).reverse.dropWhile p).reverse

/-- Python `str.strip()` (whitespace). -/
def stripWS (l : List Char) : List Char := stripBy isPySpace l

/-- Python `str.lower()` (ASCII). -/
def lowerL (l : List Char) : List Char := l.map Char.toLower

/-- Auxiliary for `collapseRuns`: the flag records whether we are inside a
run of characters satisfying `p` (already replaced by `rep`). -/
def collapseRunsAux (p : Char → Bool) (rep : Char) : Bool → List Char → List Char
  | _, [] => []
  | inRun, c :: cs =>
    if p c then
      if inRun then collapseRunsAux p rep true cs
      else rep :: collapseRunsAux p rep true cs
    else c :: collapseRunsAux p rep false cs

/-- Python `re.sub(p+, rep, s)`: replace each maximal run of characters
satisfying `p` by the single character `rep`. -/
def collapseRuns (p : Char → Bool) (rep : Char) (l : List Char) : List Char :=
  collapseRunsAux p rep false l

/-- Boolean list-prefix test. -/
def prefL : List Char → List Char → Bool
  | [], _ => true
  | _ :: _, [] => false
  | a :: as, b :: bs => a == b && prefL as bs

/-- Boolean substring test (Python `needle in hay`). -/
def subL (needle : List Char) : List Char → Bool
  | [] => prefL needle []
  | c :: cs => prefL needle (c :: cs) || subL needle cs

/-- Lexicographic (code-point) order on character lists; this is the order
Python's `sorted` uses on strings. -/
def lexLe : List Char → List Char → Bool
  | [], _ => true
  | _ :: _, [] => false
  | a :: as, b :: bs =>
    if a.toNat < b.toNat then true
    else if b.toNat < a.toNat then false
    else lexLe as bs

/-- Lexicographic order on strings (Python string comparison). -/
def strLe (a b : String) : Bool := lexLe a.data b.data

/-! ### Stable insertion sort (models Python's stable `sorted`/`list.sort`) -/

/-- Insert `a` into `l`, before the first element `b` with `le a b`.
With a total preorder `le` this is the insertion step of a stable
ascending sort: an element inserted later (i.e. occurring earlier in the
original list) lands before elements it ties with. -/
def insertLe (le : α → α → Bool) (a : α) : List α → List α
  | [] => [a]
  | b :: bs => if le a b then a :: b :: bs else b :: insertLe le a bs

/-- Stable sort w.r.t. `le` (insertion sort). A stable sort is unique as a
function, so this coincides with Python's `sorted(key=..)`/Timsort. -/
def sortLe (le : α → α → Bool) (l : List α) : List α :=
  l.foldr (insertLe le) []

theorem insertLe_perm (le : α → α → Bool) (a : α) (l : List α) :
    (insertLe le a l).Perm (a :: l) := by
  induction l with
  | nil => simp [insertLe]
  | cons b bs ih =>
    simp only [insertLe]
    by_cases h : le a b
    · simp [h]
    · simp only [h, if_false]
      exact (ih.cons b).trans (List.Perm.swap a b bs)

theorem sortLe_perm (le : α → α → Bool) (l : List α) :
    (sortLe le l).Perm l := by
  induction l with
  | nil => simp [sortLe]
  | cons a as ih =>
    have h1 : (sortLe le (a :: as)) = insertLe le a (sortLe le as) := rfl
    rw [h1]
    exact (insertLe_perm le a (sortLe le as)).trans (ih.cons a)

theorem insertLe_pairwise (le : α → α → Bool)
    (htrans : ∀ a b c, le a b = true → le b c = true → le a c = true)
    (htot : ∀ a b, le a b = true ∨ le b a = true) (a : α) (l : List α)
    (hl : l.Pairwise (fun x y => le x y = true)) :
    (insertLe le a l).Pairwise (fun x y => le x y = true) := by
  induction l with
  | nil => simp [insertLe]
  | cons b bs ih =>
    simp only [insertLe]
    rcases List.pairwise_cons.mp hl with ⟨hb, hbs⟩
    by_cases h : le a b
    · simp only [h, if_true]
      refine List.pairwise_cons.mpr ⟨?_, hl⟩
      intro y hy
      rcases List.mem_cons.mp hy with hy | hy
      · subst hy; exact h
      · exact htrans a b y h (hb y hy)
    · simp only [h, if_false]
      refine List.pairwise_cons.mpr ⟨?_, ih hbs⟩
      intro y hy
      have hy' : y ∈ a :: bs := ((insertLe_perm le a bs).mem_iff).mp hy
      rcases List.mem_cons.mp hy' with hy' | hy'
      · rcases htot a b with h2 | h2
        · exact absurd h2 h
        · rw [hy']; exact h2
      · exact hb y hy'

theorem sortLe_pairwise (le : α → α → Bool)
    (htrans : ∀ a b c, le a b = true → le b c = true → le a c = true)
    (htot : ∀ a b, le a b = true ∨ le b a = true) (l : List α) :
    (sortLe le l).Pairwise (fun x y => le x y = true) := by
  induction l with
  | nil => simp [sortLe]
  | cons a as ih => exact insertLe_pairwise le htrans htot a _ ih

theorem sortLe_mem (le : α → α → Bool) (l : List α) (x : α) :
    x ∈ sortLe le l ↔ x ∈ l :=
  (sortLe_perm le l).mem_iff


/-- The element selected by `sort descending (stably); take the head`:
the first element of `l` attaining the maximum w.r.t. `le`. -/
def firstMaxBy (le : α → α → Bool) : List α → Option α
  | [] => none
  | a :: as =>
    match firstMaxBy le as with
    | none => some a
    | some m => if le a m then some a else some m

theorem firstMaxBy_eq_none (le : α → α → Bool) (l : List α) :
    firstMaxBy le l = none ↔ l = [] := by
  cases l with
  | nil => simp [firstMaxBy]
  | cons a as =>
    simp only [firstMaxBy]
    cases firstMaxBy le as with
    | none => simp
    | some m =>
      by_cases h : le a m <;> simp [h]

theorem sortLe_head (le : α → α → Bool) (l : List α) :
    (sortLe le l).head? = firstMaxBy le l := by
  induction l with
  | nil => rfl
  | cons a as ih =>
    have h1 : sortLe le (a :: as) = insertLe le a (sortLe le as) := rfl
    rw [h1]
    cases hsort : sortLe le as with
    | nil =>
      rw [hsort] at ih
      simp only [List.head?] at ih
      simp [insertLe, firstMaxBy, ← ih]
    | cons h t =>
      rw [hsort] at ih
      simp only [List.head?] at ih
      simp only [insertLe, firstMaxBy, ← ih]
      by_cases hle : le a h <;> simp [hle]

theorem firstMaxBy_mem (le : α → α → Bool) (l : List α) (m : α)
    (h : firstMaxBy le l = some m) : m ∈ l := by
  induction l with
  | nil => simp [firstMaxBy] at h
  | cons a as ih =>
    simp only [firstMaxBy] at h
    cases hfm : firstMaxBy le as with
    | none => rw [hfm] at h; simp at h; simp [h]
    | some m' =>
      rw [hfm] at h
      by_cases hle : le a m'
      · simp [hle] at h; simp [h]
      · simp [hle] at h
        exact List.mem_cons_of_mem a (ih (by rw [hfm, h]))

theorem firstMaxBy_ge (le : α → α → Bool)
    (htrans : ∀ a b c, le a b = true → le b c = true → le a c = true)
    (htot : ∀ a b, le a b = true ∨ le b a = true) (l : List α) :
    ∀ m, firstMaxBy le l = some m → ∀ y ∈ l, le m y = true := by
  have hrefl : ∀ x, le x x = true := fun x => (htot x x).elim id id
  induction l with
  | nil => intro m h; simp [firstMaxBy] at h
  | cons a as ih =>
    intro m h y hy
    simp only [firstMaxBy] at h
    cases hfm : firstMaxBy le as with
    | none =>
      rw [hfm] at h
      simp only [Option.some.injEq] at h
      have has : as = [] := (firstMaxBy_eq_none le as).mp hfm
      subst has
      simp only [List.mem_singleton] at hy
      rw [hy, ← h]
      exact hrefl a
    | some m' =>
      rw [hfm] at h
      by_cases hle : le a m'
      · simp [hle] at h
        rw [← h]
        rcases List.mem_cons.mp hy with hy | hy
        · rw [hy]; exact hrefl a
        · exact htrans a m' y hle (ih m' hfm y hy)
      · simp [hle] at h
        rw [← h]
        rcases List.mem_cons.mp hy with hy | hy
        · rw [hy]
          exact (htot a m').resolve_left hle
        · exact ih m' hfm y hy

theorem firstMaxBy_first (le : α → α → Bool) (l : List α) :
    ∀ m, firstMaxBy le l = some m →
    ∃ l1 l2, l = l1 ++ m :: l2 ∧ ∀ y ∈ l1, le y m = false := by
  induction l with
  | nil => intro m h; simp [firstMaxBy] at h
  | cons a as ih =>
    intro m h
    simp only [firstMaxBy] at h
    cases hfm : firstMaxBy le as with
    | none =>
      rw [hfm] at h
      simp only [Option.some.injEq] at h
      exact ⟨[], as, by simp [h], by simp⟩
    | some m' =>
      rw [hfm] at h
      by_cases hle : le a m'
      · simp [hle] at h
        exact ⟨[], as, by simp [h], by simp⟩
      · simp [hle] at h
        rcases ih m' hfm with ⟨l1, l2, heq, hall⟩
        refine ⟨a :: l1, l2, by simp [heq, ← h], ?_⟩
        intro y hy
        rcases List.mem_cons.mp hy with hy | hy
        · rw [hy, ← h]
          exact Bool.eq_false_iff.mpr hle
        · rw [← h]
          exact hall y hy

/-! ### Cell values (the Python value shapes the code distinguishes) -/

/-- A worksheet/DataFrame cell value: `None`/NaN, a string, or an integer. -/
inductive CellValue where
  | vNone : CellValue
  | vStr : String → CellValue
  | vInt : Int → CellValue
deriving DecidableEq, Repr

/-- Python truthiness of a cell value (`bool(x)`). -/
def CellValue.truthy : CellValue → Bool
  | .vNone => false
  | .vStr s => !(s == "")
  | .vInt n => !(n == 0)

/-- Python `str(x)`. -/
def CellValue.pyStr : CellValue → String
  | .vNone => "None"
  | .vStr s => s
  | .vInt n => toString n

/-- Python `str(x or "")`: the empty string when `x` is falsy, else `str(x)`. -/
def CellValue.pyStrOrEmpty (v : CellValue) : String :=
  if v.truthy then v.pyStr else ""

/-- Python `str(x or "").strip()` as used on worksheet cells. -/
def CellValue.cellText (v : CellValue) : String :=
  String.mk (stripWS v.pyStrOrEmpty.data)

/-- `pandas.isna` on our cell values (`None` is the only NA shape modelled). -/
def CellValue.isna : CellValue → Bool
  | .vNone => true
  | _ => false

/-! ### First-index search (models `for i in range(..): if p(i): return i`) -/

/-- Scan `k` consecutive indices starting at `i`, returning the first one
satisfying `p`. -/
def firstIdxFrom (p : Nat → Bool) : Nat → Nat → Option Nat
  | 0, _ => none
  | k + 1, i => if p i then some i else firstIdxFrom p k (i + 1)

/-- First index in `[0, n)` satisfying `p`. -/
def firstIdx (p : Nat → Bool) (n : Nat) : Option Nat := firstIdxFrom p n 0

theorem firstIdxFrom_eq_some (p : Nat → Bool) :
    ∀ k i j, firstIdxFrom p k i = some j ↔
      i ≤ j ∧ j < i + k ∧ p j = true ∧ ∀ m, i ≤ m → m < j → p m = false := by
  intro k
  induction k with
  | zero => intro i j; simp [firstIdxFrom]; omega
  | succ k ih =>
    intro i j
    simp only [firstIdxFrom]
    by_cases hp : p i
    · rw [if_pos hp]
      simp only [Option.some.injEq]
      constructor
      · intro h; subst h
        exact ⟨le_refl i, by omega, hp, fun m h1 h2 => absurd h2 (by omega)⟩
      · rintro ⟨h1, h2, h3, h4⟩
        by_contra hne
        have hij : i < j := lt_of_le_of_ne h1 hne
        have := h4 i (le_refl i) hij
        rw [hp] at this; cases this
    · rw [if_neg hp]
      rw [ih (i + 1) j]
      constructor
      · rintro ⟨h1, h2, h3, h4⟩
        refine ⟨by omega, by omega, h3, ?_⟩
        intro m hm1 hm2
        rcases Nat.eq_or_lt_of_le hm1 with he | hl
        · rw [← he]; exact Bool.eq_false_iff.mpr hp
        · exact h4 m hl hm2
      · rintro ⟨h1, h2, h3, h4⟩
        have hij : i ≠ j := by
          intro he; rw [← he] at h3; rw [h3] at hp; exact hp rfl
        refine ⟨by omega, by omega, h3, ?_⟩
        intro m hm1 hm2
        exact h4 m (by omega) hm2

theorem firstIdxFrom_eq_none (p : Nat → Bool) :
    ∀ k i, firstIdxFrom p k i = none ↔ ∀ j, i ≤ j → j < i + k → p j = false := by
  intro k
  induction k with
  | zero => intro i; simp [firstIdxFrom]; omega
  | succ k ih =>
    intro i
    simp only [firstIdxFrom]
    by_cases hp : p i
    · rw [if_pos hp]
      constructor
      · intro h; cases h
      · intro h
        have := h i (le_refl i) (by omega)
        rw [hp] at this; cases this
    · rw [if_neg hp]
      rw [ih (i + 1)]
      constructor
      · intro h j h1 h2
        rcases Nat.eq_or_lt_of_le h1 with he | hl
        · rw [← he]; exact Bool.eq_false_iff.mpr hp
        · exact h j hl (by omega)
      · intro h j h1 h2
        exact h j (by omega) (by omega)

theorem firstIdx_eq_some (p : Nat → Bool) (n j : Nat) :
    firstIdx p n = some j ↔
      j < n ∧ p j = true ∧ ∀ m, m < j → p m = false := by
  rw [firstIdx, firstIdxFrom_eq_some]
  constructor
  · rintro ⟨_, h2, h3, h4⟩
    exact ⟨by omega, h3, fun m hm => h4 m (Nat.zero_le m) hm⟩
  · rintro ⟨h1, h2, h3⟩
    exact ⟨Nat.zero_le j, by omega, h2, fun m _ hm => h3 m hm⟩

theorem firstIdx_eq_none (p : Nat → Bool) (n : Nat) :
    firstIdx p n = none ↔ ∀ j, j < n → p j = false := by
  rw [firstIdx, firstIdxFrom_eq_none]
  constructor
  · intro h j hj; exact h j (Nat.zero_le j) (by omega)
  · intro h j _ hj; exact h j (by omega)

/-! ### Positional filtering and descending positional deletion

openpyxl's `delete_rows`/`delete_cols` remove one 1-based position; the
exporters call them on a list of positions sorted from highest to lowest.
`filterIdx` expresses the intended result (keep exactly the positions
satisfying `p`); the lemmas show the descending `eraseIdx` fold realises it. -/

/-- Keep the elements whose 0-based position (starting from `i`) satisfies `p`. -/
def filterIdxFrom (p : Nat → Bool) : Nat → List α → List α
  | _, [] => []
  | i, a :: as => if p i then a :: filterIdxFrom p (i + 1) as else filterIdxFrom p (i + 1) as

/-- Keep the elements whose 0-based position satisfies `p`. -/
def filterIdx (p : Nat → Bool) (l : List α) : List α := filterIdxFrom p 0 l

theorem filterIdxFrom_congr (p q : Nat → Bool) :
    ∀ (l : List α) i, (∀ j, p j = q j) → filterIdxFrom p i l = filterIdxFrom q i l := by
  intro l
  induction l with
  | nil => intro i h; rfl
  | cons a as ih =>
    intro i h
    simp only [filterIdxFrom, h i, ih (i + 1) h]

theorem filterIdxFrom_shift (p : Nat → Bool) :
    ∀ (l : List α) i, filterIdxFrom p (i + 1) l = filterIdxFrom (fun j => p (j + 1)) i l := by
  intro l
  induction l with
  | nil => intro i; rfl
  | cons a as ih =>
    intro i
    simp only [filterIdxFrom, ih (i + 1)]

theorem filterIdxFrom_cons (p : Nat → Bool) (i : Nat) (a : α) (as : List α) :
    filterIdxFrom p i (a :: as) =
      if p i then a :: filterIdxFrom p (i + 1) as else filterIdxFrom p (i + 1) as := rfl

theorem filterIdxFrom_one (p : Nat → Bool) (l : List α) :
    filterIdxFrom p 1 l = filterIdxFrom (fun j => p (j + 1)) 0 l :=
  filterIdxFrom_shift p l 0

/-- Erasing position `i` commutes with positional filtering: filtering the
erased list by `q` is filtering the original list by `q` reindexed around `i`. -/
theorem filterIdx_eraseIdx :
    ∀ (l : List α) (q : Nat → Bool) (i : Nat),
      filterIdx q (l.eraseIdx i) =
        filterIdx (fun j => if j < i then q j else if j = i then false else q (j - 1)) l := by
  intro l
  induction l with
  | nil => intro q i; rfl
  | cons a as ih =>
    intro q i
    cases i with
    | zero =>
      show filterIdx q as = _
      rw [filterIdx, filterIdx, filterIdxFrom_cons]
      have hc : ¬ ((if (0:Nat) < 0 then q 0 else if (0:Nat) = 0 then false else q (0 - 1)) = true) := by
        simp
      rw [if_neg hc]
      rw [filterIdxFrom_shift]
      apply filterIdxFrom_congr
      intro j
      simp
    | succ i =>
      show filterIdx q (a :: as.eraseIdx i) = _
      rw [filterIdx, filterIdx, filterIdxFrom_cons, filterIdxFrom_cons]
      have hc : (if (0:Nat) < i + 1 then q 0 else if (0:Nat) = i + 1 then false else q (0 - 1)) = q 0 := by
        simp
      rw [hc]
      have hXY : filterIdxFrom q (0 + 1) (as.eraseIdx i) =
          filterIdxFrom (fun j => if j < i + 1 then q j else if j = i + 1 then false else q (j - 1)) (0 + 1) as := by
        rw [filterIdxFrom_shift, filterIdxFrom_shift]
        have h' := ih (fun j => q (j + 1)) i
        rw [filterIdx, filterIdx] at h'
        rw [h']
        apply filterIdxFrom_congr
        intro j
        by_cases h1 : j < i
        · have h2 : j + 1 < i + 1 := by omega
          simp [h1, h2]
        · by_cases h2 : j = i
          · simp [h2]
          · have h3 : ¬ (j + 1 < i + 1) := by omega
            have h4 : ¬ (j + 1 = i + 1) := by omega
            simp only [if_neg h1, if_neg h2, if_neg h3, if_neg h4]
            congr 1
            omega
      rw [hXY]

theorem filterIdxFrom_true : ∀ (l : List α) i, filterIdxFrom (fun _ => true) i l = l := by
  intro l
  induction l with
  | nil => intro i; rfl
  | cons a as ih => intro i; simp [filterIdxFrom, ih]

/-- `foldl eraseIdx` over a list of positions, as the exporters do when they
delete rows/columns "from the highest index to the lowest". -/
def deleteIdxsDesc (l : List α) (idxs : List Nat) : List α :=
  idxs.foldl (fun acc i => acc.eraseIdx i) l

/-- Deleting a strictly descending list of positions keeps exactly the
elements whose position is not listed. -/
theorem deleteIdxsDesc_eq_filterIdx :
    ∀ (idxs : List Nat) (l : List α), idxs.Pairwise (· > ·) →
      deleteIdxsDesc l idxs = filterIdx (fun j => !(decide (j ∈ idxs))) l := by
  intro idxs
  induction idxs with
  | nil =>
    intro l _
    show l = filterIdx (fun j => !(decide (j ∈ ([] : List Nat)))) l
    rw [filterIdx]
    rw [filterIdxFrom_congr _ (fun _ => true) l 0 (by intro j; simp)]
    exact (filterIdxFrom_true l 0).symm
  | cons i rest ih =>
    intro l hpw
    rcases List.pairwise_cons.mp hpw with ⟨hgt, hrest⟩
    show deleteIdxsDesc (l.eraseIdx i) rest = _
    rw [ih (l.eraseIdx i) hrest]
    rw [filterIdx_eraseIdx]
    apply filterIdxFrom_congr
    intro j
    by_cases h1 : j < i
    · rw [if_pos h1]
      have : (j ∈ i :: rest) ↔ (j ∈ rest) := by
        constructor
        · intro h; rcases List.mem_cons.mp h with h | h
          · omega
          · exact h
        · exact List.mem_cons_of_mem i
      simp [this]
    · by_cases h2 : j = i
      · rw [if_neg h1, if_pos h2]
        have : j ∈ i :: rest := by rw [h2]; exact List.mem_cons_self i rest
        simp [this]
      · rw [if_neg h1, if_neg h2]
        have hji : i < j := by omega
        have hnr1 : ¬ (j - 1 ∈ rest) := fun hmem => by have := hgt _ hmem; omega
        have hnr2 : ¬ (j ∈ i :: rest) := by
          intro hmem
          rcases List.mem_cons.mp hmem with h | h
          · omega
          · have := hgt _ h; omega
        simp [hnr1, hnr2]

/-- Positional filtering with a predicate that is `true` below `s` and given
by `q` on the elements from `s` on: prefix preserved, tail filtered. -/
theorem filterIdx_split (d : α) :
    ∀ (l : List α) (s : Nat) (P : Nat → Bool) (q : α → Bool),
      (∀ j, j < s → P j = true) →
      (∀ j, s ≤ j → j < l.length → P j = q (l.getD j d)) →
      filterIdx P l = l.take s ++ (l.drop s).filter q := by
  intro l
  induction l with
  | nil => intro s P q _ _; simp [filterIdx, filterIdxFrom]
  | cons a as ih =>
    intro s P q h1 h2
    cases s with
    | zero =>
      have hP0 : P 0 = q a := h2 0 (Nat.le_refl 0) (by simp)
      rw [filterIdx, filterIdxFrom_cons, filterIdxFrom_shift]
      have htail : filterIdxFrom (fun j => P (j + 1)) 0 as = as.filter q := by
        have := ih 0 (fun j => P (j + 1)) q (by intro j hj; omega)
          (by intro j _ hj
              have := h2 (j + 1) (by omega) (by simpa using Nat.succ_lt_succ hj)
              simpa using this)
        simpa [filterIdx] using this
      rw [htail, hP0]
      by_cases hq : q a
      · rw [if_pos hq]
        simp [List.filter_cons, hq]
      · rw [if_neg hq]
        simp [List.filter_cons, hq]
    | succ s =>
      have hP0 : P 0 = true := h1 0 (Nat.succ_pos s)
      rw [filterIdx, filterIdxFrom_cons, if_pos hP0, filterIdxFrom_shift]
      have htail : filterIdxFrom (fun j => P (j + 1)) 0 as = as.take s ++ (as.drop s).filter q := by
        have := ih s (fun j => P (j + 1)) q
          (by intro j hj; exact h1 (j + 1) (by omega))
          (by intro j hj1 hj2
              have := h2 (j + 1) (by omega) (by simpa using Nat.succ_lt_succ hj2)
              simpa using this)
        simpa [filterIdx] using this
      rw [htail]
      simp

/-- Where an element kept by positional filtering lands: original position
`i` maps to position `(number of kept positions below i)` in the output. -/
theorem filterIdx_getD_position (d : α) :
    ∀ (l : List α) (P : Nat → Bool) (i : Nat), i < l.length → P i = true →
      (filterIdx P l).getD ((List.range i).countP P) d = l.getD i d := by
  intro l
  induction l with
  | nil => intro P i hi _; simp at hi
  | cons a as ih =>
    intro P i hi hPi
    cases i with
    | zero =>
      simp only [List.range_zero, List.countP_nil]
      rw [filterIdx, filterIdxFrom_cons, if_pos hPi]
      simp
    | succ i =>
      rw [List.range_succ_eq_map, List.countP_cons, List.countP_map]
      rw [filterIdx, filterIdxFrom_cons, filterIdxFrom_shift]
      have ih' := ih (fun j => P (j + 1)) i (by simpa using Nat.lt_of_succ_lt_succ hi) (by simpa using hPi)
      rw [filterIdx] at ih'
      have hcntP : List.countP (P ∘ Nat.succ) (List.range i) = List.countP (fun j => P (j + 1)) (List.range i) := by
        apply List.countP_congr
        intro x _
        rfl
      by_cases hP0 : P 0
      · rw [if_pos hP0, if_pos hP0]
        rw [List.getD_cons_succ]
        rw [hcntP]
        simpa using ih'
      · rw [if_neg hP0, if_neg (by simpa using hP0)]
        simp only [Nat.add_zero]
        rw [hcntP]
        simpa using ih'

/-! ### `sga_splitter.detect`: header/column detection

`candidate_name_matches` applies anchored regexes of the shape
"w1, optional whitespace, optional slash or dash, optional whitespace, w2"
(plus the single words) to the whitespace-collapsed, lowercased, stripped
header text.  `matchSepPattern w1 w2 s` is the direct compilation of one
such regex: `s` is `w1`, then a middle in the separator language, then
`w2`.  A middle is in the separator language exactly when stripping
whitespace from both of its ends leaves nothing or a single slash or dash. -/

def matchSepPattern (w1 w2 s : List Char) : Bool :=
  prefL w1 s &&
    (let rest := s.drop w1.length
     prefL w2.reverse rest.reverse &&
       (let mid := rest.take (rest.length - w2.length)
        let core := stripWS mid
        (core == ([] : List Char)) || (core == ['/']) || (core == ['-'])))

/-- The header regexes applied to the normalized header text
(`detect.candidate_name_matches`, lines 157-171). -/
def matchesNormalizedHeader (n : List Char) : Bool :=
  matchSepPattern "department".data "project".data n ||
  matchSepPattern "project".data "department".data n ||
  matchSepPattern "dept".data "project".data n ||
  matchSepPattern "project".data "dept".data n ||
  (n == "department".data) || (n == "project".data) || (n == "dept".data)

/-- `re.sub(r'\s+', ' ', header.strip().lower())` -/
def normalizeHeader (h : String) : List Char :=
  collapseRuns isPySpace ' ' (lowerL (stripWS h.data))

/-- `detect.candidate_name_matches`: `False` on the empty string, otherwise
test the anchored patterns against the normalized text. -/
def candidate_name_matches (header : String) : Bool :=
  if header.data.isEmpty then false
  else matchesNormalizedHeader (normalizeHeader header)

/-- The middles a collapsed string can contribute to the separator language. -/
def sepMids : List (List Char) :=
  [[], [' '], ['/'], [' ', '/'], ['/', ' '], [' ', '/', ' '],
   ['-'], [' ', '-'], ['-', ' '], [' ', '-', ' ']]

def pairForms (w1 w2 : List Char) : List (List Char) :=
  sepMids.map (fun m => w1 ++ m ++ w2)

/-- All whitespace-collapsed texts accepted by the header patterns. -/
def candidateForms : List (List Char) :=
  pairForms "department".data "project".data ++
  pairForms "project".data "department".data ++
  pairForms "dept".data "project".data ++
  pairForms "project".data "dept".data ++
  ["department".data, "project".data, "dept".data]

/-! ### Worksheet model and `detect.detect_header_and_column` -/

/-- A worksheet: openpyxl dimensions plus a row-major cell grid
(positions outside the stored grid read as `None`, as in openpyxl). -/
structure Sheet where
  maxRow : Nat
  maxCol : Nat
  cells : List (List CellValue)

/-- 0-based cell access. -/
def Sheet.cell (s : Sheet) (r c : Nat) : CellValue :=
  (s.cells.getD r []).getD c CellValue.vNone

/-- `str(cell.value or "").strip()` for the cell at (r, c). -/
def Sheet.cellText (s : Sheet) (r c : Nat) : String :=
  (s.cell r c).cellText

/-- One row of the scan: first column index (among the first
`min(20, max_column)`) whose text matches the header patterns. -/
def detectRowScan (s : Sheet) (r : Nat) : Option Nat :=
  firstIdx (fun c => candidate_name_matches (s.cellText r c)) (min 20 s.maxCol)

def detectAux (s : Sheet) : Nat → Nat → Option (Nat × Nat)
  | 0, _ => none
  | k + 1, r =>
    match detectRowScan s r with
    | some c => some (r, c)
    | none => detectAux s k (r + 1)

/-- `detect.detect_header_and_column`: scan rows `0..min(50, max_row)-1`
in order; in the first row with a match return `(row, first matching col)`;
`none` models the `ValueError`. -/
def detect_header_and_column (s : Sheet) : Option (Nat × Nat) :=
  detectAux s (min 50 s.maxRow) 0

example : candidate_name_matches "Department/Project" = true := by decide
example : candidate_name_matches "Dept - Project" = true := by decide
example : candidate_name_matches "PROJECT" = true := by decide
example : candidate_name_matches "  Department / Project  " = true := by decide
example : candidate_name_matches "Department Name" = false := by decide
example : candidate_name_matches "Project Manager" = false := by decide
example : candidate_name_matches "Cost Center" = false := by decide

/-! ### Characterisation of the header matcher on collapsed strings -/

/-- Every whitespace character is a plain space. -/
def noWeirdWS (l : List Char) : Prop :=
  ∀ c ∈ l, isPySpace c = true → c = ' '

/-- No two adjacent whitespace characters. -/
def noAdjWS (l : List Char) : Prop :=
  List.Chain' (fun a b => ¬(isPySpace a = true ∧ isPySpace b = true)) l

theorem mem_collapseRunsAux (p : Char → Bool) (rep : Char) :
    ∀ (l : List Char) (flag : Bool) (c : Char),
      c ∈ collapseRunsAux p rep flag l → c = rep ∨ (c ∈ l ∧ p c = false) := by
  intro l
  induction l with
  | nil => intro flag c h; cases flag <;> simp [collapseRunsAux] at h
  | cons d ds ih =>
    intro flag c h
    simp only [collapseRunsAux] at h
    by_cases hp : p d
    · rw [if_pos hp] at h
      cases flag with
      | true =>
        rcases ih true c (by simpa using h) with h' | ⟨h1, h2⟩
        · exact Or.inl h'
        · exact Or.inr ⟨List.mem_cons_of_mem d h1, h2⟩
      | false =>
        rw [if_neg Bool.false_ne_true] at h
        rcases List.mem_cons.mp h with h' | h'
        · exact Or.inl h'
        · rcases ih true c h' with h'' | ⟨h1, h2⟩
          · exact Or.inl h''
          · exact Or.inr ⟨List.mem_cons_of_mem d h1, h2⟩
    · rw [if_neg hp] at h
      rcases List.mem_cons.mp h with h' | h'
      · exact Or.inr ⟨by rw [h']; exact List.mem_cons_self d ds, by rw [h']; exact Bool.eq_false_iff.mpr hp⟩
      · rcases ih false c h' with h'' | ⟨h1, h2⟩
        · exact Or.inl h''
        · exact Or.inr ⟨List.mem_cons_of_mem d h1, h2⟩

theorem head_collapseRunsAux_true (p : Char → Bool) (rep : Char) :
    ∀ (l : List Char) (c : Char),
      (collapseRunsAux p rep true l).head? = some c → p c = false := by
  intro l
  induction l with
  | nil => intro c h; simp [collapseRunsAux] at h
  | cons d ds ih =>
    intro c h
    simp only [collapseRunsAux] at h
    by_cases hp : p d
    · rw [if_pos hp] at h
      exact ih c (by simpa using h)
    · rw [if_neg hp] at h
      simp only [List.head?_cons, Option.some.injEq] at h
      rw [← h]
      exact Bool.eq_false_iff.mpr hp

theorem chain_collapseRunsAux (p : Char → Bool) (rep : Char) :
    ∀ (l : List Char) (flag : Bool),
      List.Chain' (fun a b => ¬(p a = true ∧ p b = true)) (collapseRunsAux p rep flag l) := by
  intro l
  induction l with
  | nil => intro flag; cases flag <;> simp [collapseRunsAux]
  | cons d ds ih =>
    intro flag
    simp only [collapseRunsAux]
    by_cases hp : p d
    · rw [if_pos hp]
      cases flag with
      | true => exact ih true
      | false =>
        rw [if_neg Bool.false_ne_true]
        refine List.chain'_cons'.mpr ⟨?_, ih true⟩
        intro y hy
        intro ⟨_, hy2⟩
        have := head_collapseRunsAux_true p rep ds y hy
        rw [hy2] at this; cases this
    · rw [if_neg hp]
      refine List.chain'_cons'.mpr ⟨?_, ih false⟩
      intro y _
      intro ⟨h1, _⟩
      exact hp h1

theorem noWeirdWS_collapse (l : List Char) :
    noWeirdWS (collapseRuns isPySpace ' ' l) := by
  intro c hc hws
  rcases mem_collapseRunsAux isPySpace ' ' l false c hc with h | ⟨_, h2⟩
  · exact h
  · rw [hws] at h2; cases h2

theorem noAdjWS_collapse (l : List Char) :
    noAdjWS (collapseRuns isPySpace ' ' l) :=
  chain_collapseRunsAux isPySpace ' ' l false

theorem noWeirdWS_mono {m l : List Char} (h : m <:+: l) (hl : noWeirdWS l) :
    noWeirdWS m :=
  fun c hc => hl c (h.subset hc)

theorem noAdjWS_mono {m l : List Char} (h : m <:+: l) (hl : noAdjWS l) :
    noAdjWS m :=
  hl.infix h

theorem prefL_iff : ∀ (p l : List Char), prefL p l = true ↔ p <+: l := by
  intro p
  induction p with
  | nil => intro l; simp [prefL, List.nil_prefix]
  | cons a as ih =>
    intro l
    cases l with
    | nil => simp [prefL]
    | cons b bs =>
      simp only [prefL, Bool.and_eq_true, beq_iff_eq, List.cons_prefix_cons]
      rw [ih bs]

theorem stripBy_decomp (p : Char → Bool) (l : List Char) :
    ∃ a b, l = a ++ stripBy p l ++ b ∧ (∀ c ∈ a, p c = true) ∧ (∀ c ∈ b, p c = true) := by
  have h2 : (l.dropWhile p).reverse =
      (l.dropWhile p).reverse.takeWhile p ++ (l.dropWhile p).reverse.dropWhile p :=
    (List.takeWhile_append_dropWhile p _).symm
  have h3 : l.dropWhile p =
      ((l.dropWhile p).reverse.dropWhile p).reverse ++ ((l.dropWhile p).reverse.takeWhile p).reverse := by
    have h4 := congrArg List.reverse h2
    rw [List.reverse_reverse, List.reverse_append] at h4
    exact h4
  refine ⟨l.takeWhile p, ((l.dropWhile p).reverse.takeWhile p).reverse, ?_, ?_, ?_⟩
  · rw [stripBy, List.append_assoc, ← h3, List.takeWhile_append_dropWhile]
  · intro c hc; exact List.mem_takeWhile_imp hc
  · intro c hc
    rw [List.mem_reverse] at hc
    exact List.mem_takeWhile_imp hc

theorem allWS_short (m : List Char) (hall : ∀ c ∈ m, isPySpace c = true)
    (hw : noWeirdWS m) (ha : noAdjWS m) : m = [] ∨ m = [' '] := by
  cases m with
  | nil => exact Or.inl rfl
  | cons x t =>
    cases t with
    | nil =>
      right
      have hx : x = ' ' := hw x (List.mem_cons_self x []) (hall x (List.mem_cons_self x []))
      rw [hx]
    | cons y t' =>
      exfalso
      have hxy := (List.chain'_cons.mp ha).1
      exact hxy ⟨hall x (by simp), hall y (by simp)⟩

theorem mid_mem_sepMids (m : List Char) (hw : noWeirdWS m) (ha : noAdjWS m)
    (hcore : stripWS m = [] ∨ stripWS m = ['/'] ∨ stripWS m = ['-']) :
    m ∈ sepMids := by
  simp only [stripWS] at hcore
  rcases stripBy_decomp isPySpace m with ⟨a, b, hm, hpa, hpb⟩
  obtain ⟨s, hs⟩ : ∃ s, stripBy isPySpace m = s := ⟨_, rfl⟩
  rw [hs] at hm hcore
  have hpre : a <+: m := ⟨s ++ b, by rw [hm]; exact (List.append_assoc _ _ _).symm⟩
  have hsuf : b <:+ m := ⟨a ++ s, by rw [hm]⟩
  have hainf : a <:+: m := hpre.isInfix
  have hbinf : b <:+: m := hsuf.isInfix
  have ha2 := allWS_short a hpa (noWeirdWS_mono hainf hw) (noAdjWS_mono hainf ha)
  have hb2 := allWS_short b hpb (noWeirdWS_mono hbinf hw) (noAdjWS_mono hbinf ha)
  rcases hcore with hc | hc | hc <;> rw [hc] at hm <;>
    rcases ha2 with ha2 | ha2 <;> rw [ha2] at hm <;>
      rcases hb2 with hb2 | hb2 <;> rw [hb2] at hm <;> subst hm <;>
        first
          | decide
          | (exfalso
             have hchain : List.Chain'
                 (fun x y => ¬(isPySpace x = true ∧ isPySpace y = true)) [' ', ' '] := by
               simpa [noAdjWS] using ha
             exact (List.chain'_cons.mp hchain).1 ⟨by decide, by decide⟩)

theorem matchSepPattern_sound (w1 w2 n : List Char) (hw : noWeirdWS n) (ha : noAdjWS n)
    (h : matchSepPattern w1 w2 n = true) : ∃ mid ∈ sepMids, n = w1 ++ mid ++ w2 := by
  simp only [matchSepPattern, Bool.and_eq_true, Bool.or_eq_true, beq_iff_eq] at h
  obtain ⟨h1, h2, h3⟩ := h
  rcases (prefL_iff w1 n).mp h1 with ⟨t, ht⟩
  have hrest : n.drop w1.length = t := by rw [← ht]; exact List.drop_left w1 t
  rw [hrest] at h2 h3
  have hsuffix : w2 <:+ t := List.reverse_prefix.mp ((prefL_iff _ _).mp h2)
  rcases hsuffix with ⟨mseg, hmseg⟩
  have hlen : t.length - w2.length = mseg.length := by
    rw [← hmseg, List.length_append]; omega
  have hmid : t.take (t.length - w2.length) = mseg := by
    rw [hlen, ← hmseg]; exact List.take_left mseg w2
  rw [hmid] at h3
  have hninf : mseg <:+: n := ⟨w1, w2, by rw [List.append_assoc, hmseg, ht]⟩
  have hmem := mid_mem_sepMids mseg (noWeirdWS_mono hninf hw) (noAdjWS_mono hninf ha) (or_assoc.mp h3)
  exact ⟨mseg, hmem, by rw [List.append_assoc, hmseg, ht]⟩

theorem forms_match : ∀ n ∈ candidateForms, matchesNormalizedHeader n = true := by decide

theorem matchesNormalizedHeader_mem (n : List Char) (hw : noWeirdWS n) (ha : noAdjWS n)
    (h : matchesNormalizedHeader n = true) : n ∈ candidateForms := by
  have hmk : ∀ w1 w2 : List Char, (∃ mid ∈ sepMids, n = w1 ++ mid ++ w2) → n ∈ pairForms w1 w2 := by
    intro w1 w2 hex
    rcases hex with ⟨mid, hmem, heq⟩
    rw [heq]
    exact List.mem_map.mpr ⟨mid, hmem, rfl⟩
  simp only [matchesNormalizedHeader, Bool.or_eq_true, beq_iff_eq] at h
  simp only [candidateForms, List.mem_append]
  rcases h with ((((((h | h) | h) | h) | h) | h) | h)
  · exact Or.inl (Or.inl (Or.inl (Or.inl (hmk _ _ (matchSepPattern_sound _ _ n hw ha h)))))
  · exact Or.inl (Or.inl (Or.inl (Or.inr (hmk _ _ (matchSepPattern_sound _ _ n hw ha h)))))
  · exact Or.inl (Or.inl (Or.inr (hmk _ _ (matchSepPattern_sound _ _ n hw ha h))))
  · exact Or.inl (Or.inr (hmk _ _ (matchSepPattern_sound _ _ n hw ha h)))
  · exact Or.inr (by rw [h]; decide)
  · exact Or.inr (by rw [h]; decide)
  · exact Or.inr (by rw [h]; decide)

theorem candidate_name_matches_iff (h : String) :
    candidate_name_matches h = true ↔ h ≠ "" ∧ normalizeHeader h ∈ candidateForms := by
  constructor
  · intro hc
    rw [candidate_name_matches] at hc
    by_cases he : h.data.isEmpty
    · rw [if_pos he] at hc; cases hc
    · rw [if_neg he] at hc
      refine ⟨?_, ?_⟩
      · intro heq; rw [heq] at he; exact he (by decide)
      · exact matchesNormalizedHeader_mem (normalizeHeader h)
          (noWeirdWS_collapse (lowerL (stripWS h.data)))
          (noAdjWS_collapse (lowerL (stripWS h.data))) hc
  · rintro ⟨hne, hmem⟩
    rw [candidate_name_matches]
    have he : h.data.isEmpty = false := by
      cases hd : h.data with
      | nil => exact absurd (String.ext (hd.trans rfl)) hne
      | cons x xs => rfl
    rw [if_neg (by rw [he]; exact Bool.false_ne_true)]
    exact forms_match _ hmem

theorem detectAux_eq_some (s : Sheet) :
    ∀ k r0 r c, detectAux s k r0 = some (r, c) ↔
      (r0 ≤ r ∧ r < r0 + k ∧ detectRowScan s r = some c ∧
       ∀ r', r0 ≤ r' → r' < r → detectRowScan s r' = none) := by
  intro k
  induction k with
  | zero => intro r0 r c; simp [detectAux]; omega
  | succ k ih =>
    intro r0 r c
    simp only [detectAux]
    cases hscan : detectRowScan s r0 with
    | some c0 =>
      simp only [Option.some.injEq, Prod.mk.injEq]
      constructor
      · rintro ⟨hr, hc⟩
        subst hr; subst hc
        exact ⟨le_refl r0, by omega, hscan, fun r' h1 h2 => absurd h2 (by omega)⟩
      · rintro ⟨h1, h2, h3, h4⟩
        rcases Nat.eq_or_lt_of_le h1 with he | hl
        · refine ⟨he, ?_⟩
          rw [← he] at h3
          rw [hscan] at h3
          exact Option.some.inj h3
        · exact absurd hscan (by rw [h4 r0 (le_refl r0) hl]; intro hx; cases hx)
    | none =>
      rw [ih (r0 + 1) r c]
      constructor
      · rintro ⟨h1, h2, h3, h4⟩
        refine ⟨by omega, by omega, h3, ?_⟩
        intro r' hr1 hr2
        rcases Nat.eq_or_lt_of_le hr1 with he | hl
        · rw [← he]; exact hscan
        · exact h4 r' hl hr2
      · rintro ⟨h1, h2, h3, h4⟩
        have hne : r0 ≠ r := by
          intro he; rw [← he] at h3; rw [hscan] at h3; cases h3
        exact ⟨by omega, by omega, h3, fun r' h1' h2' => h4 r' (by omega) h2'⟩

theorem detect_header_and_column_iff (s : Sheet) (r c : Nat) :
    detect_header_and_column s = some (r, c) ↔
      (r < min 50 s.maxRow ∧ c < min 20 s.maxCol ∧
       candidate_name_matches (s.cellText r c) = true ∧
       (∀ r' < r, ∀ c' < min 20 s.maxCol, candidate_name_matches (s.cellText r' c') = false) ∧
       (∀ c' < c, candidate_name_matches (s.cellText r c') = false)) := by
  rw [detect_header_and_column, detectAux_eq_some]
  constructor
  · rintro ⟨_, h2, h3, h4⟩
    rw [detectRowScan, firstIdx_eq_some] at h3
    obtain ⟨hc, hm, hfirst⟩ := h3
    refine ⟨by omega, hc, hm, ?_, ?_⟩
    · intro r' hr' c' hc'
      have hnone := h4 r' (Nat.zero_le r') hr'
      rw [detectRowScan, firstIdx_eq_none] at hnone
      exact hnone c' hc'
    · intro c' hc'
      exact hfirst c' hc'
  · rintro ⟨h1, h2, h3, h4, h5⟩
    refine ⟨Nat.zero_le r, by omega, ?_, ?_⟩
    · rw [detectRowScan, firstIdx_eq_some]
      exact ⟨h2, h3, fun c' hc' => h5 c' hc'⟩
    · intro r' _ hr'
      rw [detectRowScan, firstIdx_eq_none]
      intro c' hc'
      exact h4 r' hr' c' hc'

/-- C2: `candidate_name_matches` accepts a header cell text exactly when the
whole whitespace-collapsed, lowercased text equals one of the
department/project pattern forms (in particular "Department/Project",
"Dept - Project", "PROJECT" and "  Department / Project  " match while
"Department Name", "Project Manager" and "Cost Center" do not), and
`detect_header_and_column`, scanning rows `0..min(50,maxRow)-1` by columns
`0..min(20,maxCol)-1` in row-major order, returns the first matching cell
of the first row containing any match, scanned left to right. -/
theorem claim_C2 :
    (∀ h : String, candidate_name_matches h = true ↔
        h ≠ "" ∧ normalizeHeader h ∈ candidateForms) ∧
    (candidate_name_matches "Department/Project" = true ∧
     candidate_name_matches "Dept - Project" = true ∧
     candidate_name_matches "PROJECT" = true ∧
     candidate_name_matches "  Department / Project  " = true ∧
     candidate_name_matches "Department Name" = false ∧
     candidate_name_matches "Project Manager" = false ∧
     candidate_name_matches "Cost Center" = false) ∧
    (∀ (s : Sheet) (r c : Nat),
       detect_header_and_column s = some (r, c) ↔
         (r < min 50 s.maxRow ∧ c < min 20 s.maxCol ∧
          candidate_name_matches (s.cellText r c) = true ∧
          (∀ r' < r, ∀ c' < min 20 s.maxCol,
             candidate_name_matches (s.cellText r' c') = false) ∧
          (∀ c' < c, candidate_name_matches (s.cellText r c') = false))) :=
  ⟨candidate_name_matches_iff, by decide, detect_header_and_column_iff⟩

/-! ### `sga_splitter.core`: group collection -/

/-- Whole-word search (regex word boundaries on both sides): scan positions
keeping track of the previous character. -/
def containsWordAux (w : List Char) : Option Char → List Char → Bool
  | _, [] => false
  | prev, c :: cs =>
    ((match prev with | none => true | some d => !isWordChar d) &&
     prefL w (c :: cs) &&
     (match (c :: cs).drop w.length with | [] => true | d :: _ => !isWordChar d)) ||
    containsWordAux w (some c) cs

/-- `core._is_total_row`: `False` on the empty string, else search for the
whole word "total" (case-insensitive) in the value. -/
def _is_total_row (g : String) : Bool :=
  if g == "" then false
  else containsWordAux "total".data none (lowerL g.data)

example : _is_total_row "Total" = true := by decide
example : _is_total_row "Grand Total" = true := by decide
example : _is_total_row "Totally Different Dept" = false := by decide
example : _is_total_row "subtotal" = false := by decide
example : _is_total_row "total_x" = false := by decide

/-- `pandas.unique`: drop later duplicates, keeping first-seen order. -/
def dedupKeepFirstAux [DecidableEq β] (seen : List β) : List β → List β
  | [] => []
  | x :: xs =>
    if x ∈ seen then dedupKeepFirstAux seen xs
    else x :: dedupKeepFirstAux (x :: seen) xs

/-- The per-value body of the `collect_groups` loop: `none` models `continue`,
`some g` models `groups.append(g)`. -/
def toGroupName (include_empty skip_totals : Bool) (v : CellValue) : Option String :=
  if v.isna then (if include_empty then some "" else none)
  else if String.mk (stripWS v.pyStr.data) == "" && !include_empty then none
  else if skip_totals && _is_total_row (String.mk (stripWS v.pyStr.data)) then none
  else some (String.mk (stripWS v.pyStr.data))

/-- The comparison key for deduplication: case-folded when requested. -/
def keyOf (case_insensitive : Bool) (g : String) : String :=
  if case_insensitive then String.mk (lowerL g.data) else g

/-- The `seen`-set deduplication loop of `collect_groups`. -/
def dedupByKeyAux (key : String → String) (seen : List String) : List String → List String
  | [] => []
  | g :: gs =>
    if key g ∈ seen then dedupByKeyAux key seen gs
    else g :: dedupByKeyAux key (key g :: seen) gs

/-- `collect_groups` before its final dedup/sort: drop NA unless
`include_empty`, take pandas-unique values, convert and filter each. -/
def collectedRaw (col : List CellValue) (skip_totals include_empty : Bool) : List String :=
  let series := if include_empty then col else col.filter (fun v => !v.isna)
  (dedupKeepFirstAux [] series).filterMap (toGroupName include_empty skip_totals)

/-- `core.collect_groups`. -/
def collect_groups (col : List CellValue) (skip_totals case_insensitive include_empty : Bool) :
    List String :=
  sortLe strLe
    (dedupByKeyAux (keyOf case_insensitive) [] (collectedRaw col skip_totals include_empty))

example :
    collect_groups
      [CellValue.vStr "Sales", CellValue.vStr " HR ", CellValue.vNone,
       CellValue.vStr "SALES", CellValue.vStr "Grand Total", CellValue.vStr "HR"]
      true true false = ["HR", "Sales"] := by decide

example :
    collect_groups
      [CellValue.vStr "Sales", CellValue.vStr "SALES"] true false false
      = ["SALES", "Sales"] := by decide

theorem lexLe_trans : ∀ a b c : List Char, lexLe a b = true → lexLe b c = true → lexLe a c = true := by
  intro a
  induction a with
  | nil => intro b c _ _; simp [lexLe]
  | cons x xs ih =>
    intro b c h1 h2
    cases b with
    | nil => simp [lexLe] at h1
    | cons y ys =>
      cases c with
      | nil => simp [lexLe] at h2
      | cons z zs =>
        simp only [lexLe] at h1 h2 ⊢
        split_ifs at h1 h2 ⊢ <;>
          first
            | rfl
            | omega
            | exact ih ys zs h1 h2

theorem lexLe_total : ∀ a b : List Char, lexLe a b = true ∨ lexLe b a = true := by
  intro a
  induction a with
  | nil => intro b; exact Or.inl (by simp [lexLe])
  | cons x xs ih =>
    intro b
    cases b with
    | nil => exact Or.inr (by simp [lexLe])
    | cons y ys =>
      simp only [lexLe]
      split_ifs <;>
        first
          | exact Or.inl rfl
          | exact Or.inr rfl
          | omega
          | exact ih ys

theorem strLe_trans : ∀ a b c : String, strLe a b = true → strLe b c = true → strLe a c = true :=
  fun a b c h1 h2 => lexLe_trans a.data b.data c.data h1 h2

theorem strLe_total : ∀ a b : String, strLe a b = true ∨ strLe b a = true :=
  fun a b => lexLe_total a.data b.data

theorem dedupByKeyAux_mem (key : String → String) :
    ∀ (l seen : List String) (g : String), g ∈ dedupByKeyAux key seen l → g ∈ l := by
  intro l
  induction l with
  | nil => intro seen g h; simp [dedupByKeyAux] at h
  | cons x xs ih =>
    intro seen g h
    simp only [dedupByKeyAux] at h
    by_cases hx : key x ∈ seen
    · rw [if_pos hx] at h
      exact List.mem_cons_of_mem x (ih seen g h)
    · rw [if_neg hx] at h
      rcases List.mem_cons.mp h with h' | h'
      · rw [h']; exact List.mem_cons_self x xs
      · exact List.mem_cons_of_mem x (ih (key x :: seen) g h')

theorem dedupByKeyAux_notin_seen (key : String → String) :
    ∀ (l seen : List String) (g : String), g ∈ dedupByKeyAux key seen l → key g ∉ seen := by
  intro l
  induction l with
  | nil => intro seen g h; simp [dedupByKeyAux] at h
  | cons x xs ih =>
    intro seen g h
    simp only [dedupByKeyAux] at h
    by_cases hx : key x ∈ seen
    · rw [if_pos hx] at h
      exact ih seen g h
    · rw [if_neg hx] at h
      rcases List.mem_cons.mp h with h' | h'
      · rw [h']; exact hx
      · intro hin
        exact ih (key x :: seen) g h' (List.mem_cons_of_mem _ hin)

theorem dedupByKeyAux_pairwise (key : String → String) :
    ∀ (l seen : List String),
      (dedupByKeyAux key seen l).Pairwise (fun a b => key a ≠ key b) := by
  intro l
  induction l with
  | nil => intro seen; simp [dedupByKeyAux]
  | cons x xs ih =>
    intro seen
    simp only [dedupByKeyAux]
    by_cases hx : key x ∈ seen
    · rw [if_pos hx]; exact ih seen
    · rw [if_neg hx]
      refine List.pairwise_cons.mpr ⟨?_, ih (key x :: seen)⟩
      intro y hy he
      exact dedupByKeyAux_notin_seen key xs (key x :: seen) y hy (by rw [← he]; exact List.mem_cons_self _ _)

theorem dedupByKeyAux_find (key : String → String) :
    ∀ (l seen : List String) (g : String), g ∈ dedupByKeyAux key seen l →
      l.find? (fun x => key x == key g) = some g := by
  intro l
  induction l with
  | nil => intro seen g h; simp [dedupByKeyAux] at h
  | cons x xs ih =>
    intro seen g h
    simp only [dedupByKeyAux] at h
    by_cases hx : key x ∈ seen
    · rw [if_pos hx] at h
      have hne : (key x == key g) = false := by
        rw [beq_eq_false_iff_ne]
        intro he
        exact dedupByKeyAux_notin_seen key xs seen g h (by rw [← he]; exact hx)
      rw [List.find?_cons_of_neg _ (by rw [hne]; exact Bool.false_ne_true)]
      exact ih seen g h
    · rw [if_neg hx] at h
      rcases List.mem_cons.mp h with h' | h'
      · rw [h']
        rw [List.find?_cons_of_pos _ (by simp)]
      · have hnin := dedupByKeyAux_notin_seen key xs (key x :: seen) g h'
        have hne : (key x == key g) = false := by
          rw [beq_eq_false_iff_ne]
          intro he
          exact hnin (by rw [← he]; exact List.mem_cons_self _ _)
        rw [List.find?_cons_of_neg _ (by rw [hne]; exact Bool.false_ne_true)]
        exact ih (key x :: seen) g h'

theorem dedupKeepFirstAux_mem [DecidableEq β] :
    ∀ (l seen : List β) (x : β), x ∈ dedupKeepFirstAux seen l → x ∈ l := by
  intro l
  induction l with
  | nil => intro seen x h; simp [dedupKeepFirstAux] at h
  | cons a as ih =>
    intro seen x h
    simp only [dedupKeepFirstAux] at h
    by_cases ha : a ∈ seen
    · rw [if_pos ha] at h
      exact List.mem_cons_of_mem a (ih seen x h)
    · rw [if_neg ha] at h
      rcases List.mem_cons.mp h with h' | h'
      · rw [h']; exact List.mem_cons_self a as
      · exact List.mem_cons_of_mem a (ih (a :: seen) x h')

theorem collectedRaw_mem (col : List CellValue) (st ie : Bool) (g : String)
    (h : g ∈ collectedRaw col st ie) : ∃ v ∈ col, toGroupName ie st v = some g := by
  simp only [collectedRaw, List.mem_filterMap] at h
  rcases h with ⟨v, hv, hconv⟩
  have hv2 := dedupKeepFirstAux_mem _ _ v hv
  refine ⟨v, ?_, hconv⟩
  by_cases hie : ie
  · rw [if_pos hie] at hv2; exact hv2
  · rw [if_neg hie] at hv2
    exact (List.mem_filter.mp hv2).1

theorem pairwise_key_count_le_one (key : String → String) (l : List String)
    (h : l.Pairwise (fun a b => key a ≠ key b)) (x : String) : l.count x ≤ 1 := by
  induction l with
  | nil => simp
  | cons a as ih =>
    rcases List.pairwise_cons.mp h with ⟨ha, has⟩
    rw [List.count_cons]
    by_cases hax : a = x
    · have hzero : as.count x = 0 := by
        rw [List.count_eq_zero]
        intro hmem
        exact ha x hmem (by rw [hax])
      simp [hzero, hax]
    · simpa [hax] using ih has

theorem toGroupName_total (ie : Bool) (v : CellValue) (g : String)
    (h : toGroupName ie true v = some g) : _is_total_row g = false := by
  rw [toGroupName] at h
  by_cases hna : v.isna
  · rw [if_pos hna] at h
    cases ie with
    | true =>
      simp only [if_true, Option.some.injEq] at h
      rw [← h]
      decide
    | false => simp at h
  · rw [if_neg hna] at h
    by_cases h1 : (String.mk (stripWS v.pyStr.data) == "" && !ie) = true
    · rw [if_pos h1] at h; cases h
    · rw [if_neg h1] at h
      by_cases h2 : (true && _is_total_row (String.mk (stripWS v.pyStr.data))) = true
      · rw [if_pos h2] at h; cases h
      · rw [if_neg h2] at h
        rw [← Option.some.inj h]
        rw [Bool.true_and] at h2
        exact Bool.eq_false_iff.mpr h2

theorem toGroupName_ne_empty (st : Bool) (v : CellValue) (g : String)
    (h : toGroupName false st v = some g) : g ≠ "" := by
  rw [toGroupName] at h
  by_cases hna : v.isna
  · rw [if_pos hna] at h; simp at h
  · rw [if_neg hna] at h
    by_cases h1 : (String.mk (stripWS v.pyStr.data) == "" && !false) = true
    · rw [if_pos h1] at h; cases h
    · rw [if_neg h1] at h
      by_cases h2 : (st && _is_total_row (String.mk (stripWS v.pyStr.data))) = true
      · rw [if_pos h2] at h; cases h
      · rw [if_neg h2] at h
        rw [← Option.some.inj h]
        intro he
        apply h1
        rw [he]
        decide

/-- C3: `collect_groups` returns a lexicographically sorted list of
whitespace-trimmed values, duplicate-free under the comparison key
(case-folded exactly when `case_insensitive`, with the first-seen casing
retained as the canonical label), omitting whole-word "total" values when
`skip_totals`, mapping blanks/nulls to the empty string at most once and
only when `include_empty`, and returning an empty list (not an error) for
an entirely empty or fully filtered column. -/
theorem claim_C3 :
    ∀ (col : List CellValue) (st ci ie : Bool),
      (collect_groups col st ci ie).Pairwise (fun a b => strLe a b = true) ∧
      (collect_groups col st ci ie).Pairwise (fun a b => keyOf ci a ≠ keyOf ci b) ∧
      (∀ g ∈ collect_groups col st ci ie,
        (collectedRaw col st ie).find? (fun x => keyOf ci x == keyOf ci g) = some g) ∧
      (∀ g ∈ collect_groups col st ci ie, ∃ v ∈ col, toGroupName ie st v = some g) ∧
      (st = true → ∀ g ∈ collect_groups col st ci ie, _is_total_row g = false) ∧
      (ie = false → ∀ g ∈ collect_groups col st ci ie, g ≠ "") ∧
      ((collect_groups col st ci ie).count "" ≤ 1) ∧
      ((∀ v ∈ col, toGroupName ie st v = none) → collect_groups col st ci ie = []) ∧
      (collect_groups [] st ci ie = []) ∧
      (_is_total_row "Total" = true ∧ _is_total_row "Grand Total" = true ∧
       _is_total_row "Totally Different Dept" = false) := by
  intro col st ci ie
  have hperm := sortLe_perm strLe (dedupByKeyAux (keyOf ci) [] (collectedRaw col st ie))
  have hpwkey := dedupByKeyAux_pairwise (keyOf ci) (collectedRaw col st ie) []
  have hkeysym : ∀ {x y : String}, keyOf ci x ≠ keyOf ci y → keyOf ci y ≠ keyOf ci x :=
    fun hxy => fun he => hxy he.symm
  have hpw2 : (collect_groups col st ci ie).Pairwise (fun a b => keyOf ci a ≠ keyOf ci b) :=
    ((List.Perm.pairwise_iff hkeysym hperm).mpr hpwkey)
  have hmemdd : ∀ g ∈ collect_groups col st ci ie,
      g ∈ dedupByKeyAux (keyOf ci) [] (collectedRaw col st ie) := by
    intro g hg
    exact (sortLe_mem strLe _ g).mp hg
  have hmemraw : ∀ g ∈ collect_groups col st ci ie, g ∈ collectedRaw col st ie := by
    intro g hg
    exact dedupByKeyAux_mem (keyOf ci) _ [] g (hmemdd g hg)
  have horigin : ∀ g ∈ collect_groups col st ci ie, ∃ v ∈ col, toGroupName ie st v = some g := by
    intro g hg
    exact collectedRaw_mem col st ie g (hmemraw g hg)
  refine ⟨?_, hpw2, ?_, horigin, ?_, ?_, ?_, ?_, ?_, by decide, by decide, by decide⟩
  · exact sortLe_pairwise strLe strLe_trans strLe_total _
  · intro g hg
    exact dedupByKeyAux_find (keyOf ci) (collectedRaw col st ie) [] g (hmemdd g hg)
  · intro hst g hg
    rcases horigin g hg with ⟨v, _, hv⟩
    rw [hst] at hv
    exact toGroupName_total ie v g hv
  · intro hie g hg
    rcases horigin g hg with ⟨v, _, hv⟩
    rw [hie] at hv
    exact toGroupName_ne_empty st v g hv
  · exact pairwise_key_count_le_one (keyOf ci) _ hpw2 ""
  · intro hall
    have hraw : collectedRaw col st ie = [] := by
      rw [collectedRaw, List.filterMap_eq_nil_iff]
      intro v hv
      apply hall
      have hv2 := dedupKeepFirstAux_mem _ _ v hv
      by_cases hie : ie
      · rw [if_pos hie] at hv2; exact hv2
      · rw [if_neg hie] at hv2; exact (List.mem_filter.mp hv2).1
    rw [collect_groups, hraw]
    rfl
  · cases ie <;> rfl

/-! ### `sga_splitter.io_utils` and the standalone script: filenames -/

/-- The reserved filename characters both sanitizers replace. -/
def reservedChars : List Char := ['<', '>', ':', '"', '|', '?', '*', '\\', '/']

/-- `io_utils.sanitize_filename`, stage 1: `re.sub` of the reserved
characters by an underscore, applied to the stripped text. -/
def sanitizeStage1 (text : String) : List Char :=
  (stripWS text.data).map (fun c => if reservedChars.contains c then '_' else c)

/-- Stages 2 and 3: collapse whitespace runs to one space, then
`strip('. ')`. -/
def sanitizeStage3 (text : String) : List Char :=
  stripBy (fun c => c == '.' || c == ' ') (collapseRuns isPySpace ' ' (sanitizeStage1 text))

/-- Stage 4: truncate to 200 characters and re-strip whitespace when over
the limit. -/
def sanitizeStage4 (text : String) : List Char :=
  if (sanitizeStage3 text).length > 200 then stripWS ((sanitizeStage3 text).take 200)
  else sanitizeStage3 text

/-- `io_utils.sanitize_filename`: the staged pipeline with the "Unknown"
fallbacks for blank input and an empty final result. -/
def sanitize_filename (text : String) : String :=
  if (stripWS text.data).isEmpty then "Unknown"
  else if (sanitizeStage4 text).isEmpty then "Unknown"
  else String.mk (sanitizeStage4 text)

/-- `export_commit_draft_clone.sanitize_filename`, main stage: replace
reserved characters with a dash, collapse runs of dashes, strip
leading/trailing dashes; no truncation. -/
def sanitizeDraftStage (text : String) : List Char :=
  stripBy (fun c => c == '-')
    (collapseRuns (fun c => c == '-') '-'
      ((stripWS text.data).map (fun c => if reservedChars.contains c then '-' else c)))

/-- `export_commit_draft_clone.sanitize_filename` with its "Unknown"
fallbacks. -/
def sanitize_filename_draft (text : String) : String :=
  if (stripWS text.data).isEmpty then "Unknown"
  else if (sanitizeDraftStage text).isEmpty then "Unknown"
  else String.mk (sanitizeDraftStage text)

example : sanitize_filename "Sales/Marketing" = "Sales_Marketing" := by decide
example : sanitize_filename_draft "Sales/Marketing" = "Sales-Marketing" := by decide

/-- `io_utils.generate_unique_filename`, with the filesystem modelled as the
list of existing paths and the unbounded `while True` loop given fuel:
try `stem ++ ext`, then `stem #2`, `stem #3`, ... -/
def gufAux (fs : List String) (stem ext : String) : Nat → Nat → Option String
  | 0, _ => none
  | fuel + 1, n =>
    let cand := stem ++ " #" ++ toString n ++ ext
    if fs.contains cand then gufAux fs stem ext fuel (n + 1) else some cand

def generate_unique_filename (fs : List String) (stem ext : String) (fuel : Nat) : Option String :=
  if fs.contains (stem ++ ext) then gufAux fs stem ext fuel 2
  else some (stem ++ ext)

example :
    generate_unique_filename ["Sales - SG&A Summary.xlsx"] "Sales - SG&A Summary" ".xlsx" 1
      = some "Sales - SG&A Summary #2.xlsx" := by decide

theorem mem_stripBy {c : Char} (p : Char → Bool) (l : List Char) (h : c ∈ stripBy p l) :
    c ∈ l := by
  rw [stripBy, List.mem_reverse] at h
  have h2 := (List.dropWhile_sublist p).subset h
  rw [List.mem_reverse] at h2
  exact (List.dropWhile_sublist p).subset h2

theorem mem_collapseRuns {c : Char} (p : Char → Bool) (rep : Char) (l : List Char)
    (h : c ∈ collapseRuns p rep l) : c = rep ∨ c ∈ l := by
  rcases mem_collapseRunsAux p rep l false c h with h' | ⟨h1, _⟩
  · exact Or.inl h'
  · exact Or.inr h1

theorem length_stripBy_le (p : Char → Bool) (l : List Char) :
    (stripBy p l).length ≤ l.length := by
  rw [stripBy, List.length_reverse]
  calc ((l.dropWhile p).reverse.dropWhile p).length
      ≤ (l.dropWhile p).reverse.length := (List.dropWhile_sublist p).length_le
    _ = (l.dropWhile p).length := List.length_reverse _
    _ ≤ l.length := (List.dropWhile_sublist p).length_le

theorem dropWhile_head_not (p : Char → Bool) :
    ∀ (l : List Char) (c : Char), (l.dropWhile p).head? = some c → p c = false := by
  intro l
  induction l with
  | nil => intro c h; simp [List.dropWhile] at h
  | cons d ds ih =>
    intro c h
    rw [List.dropWhile_cons] at h
    by_cases hp : p d
    · rw [if_pos hp] at h; exact ih c h
    · rw [if_neg hp] at h
      simp only [List.head?_cons, Option.some.injEq] at h
      rw [← h]
      exact Bool.eq_false_iff.mpr hp

theorem getLast?_dropWhile (p : Char → Bool) (x : List Char)
    (h : (x.dropWhile p).getLast? = some c) : x.getLast? = some c := by
  rcases List.dropWhile_suffix p (l := x) with ⟨t, ht⟩
  rw [← ht, List.getLast?_append, h]
  rfl

theorem stripBy_getLast_not (p : Char → Bool) (l : List Char) (c : Char)
    (h : (stripBy p l).getLast? = some c) : p c = false := by
  rw [stripBy, List.getLast?_reverse] at h
  exact dropWhile_head_not p _ c h

theorem stripBy_head_not (p : Char → Bool) (l : List Char) (c : Char)
    (h : (stripBy p l).head? = some c) : p c = false := by
  rw [stripBy, List.head?_reverse] at h
  have h2 := getLast?_dropWhile p (l.dropWhile p).reverse h
  rw [List.getLast?_reverse] at h2
  exact dropWhile_head_not p l c h2

theorem sanitizeStage4_no_reserved (t : String) :
    ∀ c ∈ sanitizeStage4 t, c ∉ reservedChars := by
  intro c hc
  have hc3 : c ∈ sanitizeStage3 t := by
    rw [sanitizeStage4] at hc
    by_cases hlen : (sanitizeStage3 t).length > 200
    · rw [if_pos hlen] at hc
      exact (List.take_sublist 200 _).subset (mem_stripBy isPySpace _ hc)
    · rw [if_neg hlen] at hc; exact hc
  have hc2 := mem_stripBy _ _ hc3
  rcases mem_collapseRuns isPySpace ' ' _ hc2 with hsp | hc1
  · rw [hsp]; decide
  · rcases List.mem_map.mp hc1 with ⟨a, _, hfa⟩
    by_cases hr : reservedChars.contains a
    · rw [if_pos hr] at hfa; rw [← hfa]; decide
    · rw [if_neg hr] at hfa
      rw [← hfa]
      intro hmem
      exact hr (List.elem_iff.mpr hmem)

theorem sanitizeStage4_length_le (t : String) : (sanitizeStage4 t).length ≤ 200 := by
  rw [sanitizeStage4]
  by_cases hlen : (sanitizeStage3 t).length > 200
  · rw [if_pos hlen]
    calc (stripWS ((sanitizeStage3 t).take 200)).length
        ≤ ((sanitizeStage3 t).take 200).length := length_stripBy_le _ _
      _ ≤ 200 := by rw [List.length_take]; omega
  · rw [if_neg hlen]
    omega

theorem sanitize_filename_length_le (t : String) :
    (sanitize_filename t).data.length ≤ 200 := by
  rw [sanitize_filename]
  by_cases h1 : (stripWS t.data).isEmpty
  · rw [if_pos h1]; decide
  · rw [if_neg h1]
    by_cases h2 : (sanitizeStage4 t).isEmpty
    · rw [if_pos h2]; decide
    · rw [if_neg h2]
      exact sanitizeStage4_length_le t

theorem sanitize_filename_no_reserved (t : String) :
    ∀ c ∈ (sanitize_filename t).data, c ∉ reservedChars := by
  rw [sanitize_filename]
  by_cases h1 : (stripWS t.data).isEmpty
  · rw [if_pos h1]; decide
  · rw [if_neg h1]
    by_cases h2 : (sanitizeStage4 t).isEmpty
    · rw [if_pos h2]; decide
    · rw [if_neg h2]
      exact sanitizeStage4_no_reserved t

theorem sanitize_filename_ne_empty (t : String) : sanitize_filename t ≠ "" := by
  rw [sanitize_filename]
  by_cases h1 : (stripWS t.data).isEmpty
  · rw [if_pos h1]; decide
  · rw [if_neg h1]
    by_cases h2 : (sanitizeStage4 t).isEmpty
    · rw [if_pos h2]; decide
    · rw [if_neg h2]
      intro he
      have : (sanitizeStage4 t) = [] := congrArg String.data he
      rw [this] at h2
      exact h2 rfl

theorem sanitizeDraftStage_no_reserved (t : String) :
    ∀ c ∈ sanitizeDraftStage t, c ∉ reservedChars := by
  intro c hc
  have hc2 := mem_stripBy _ _ hc
  rcases mem_collapseRuns (fun c => c == '-') '-' _ hc2 with hd | hc1
  · rw [hd]; decide
  · rcases List.mem_map.mp hc1 with ⟨a, _, hfa⟩
    by_cases hr : reservedChars.contains a
    · rw [if_pos hr] at hfa; rw [← hfa]; decide
    · rw [if_neg hr] at hfa
      rw [← hfa]
      intro hmem
      exact hr (List.elem_iff.mpr hmem)

theorem sanitizeDraftStage_no_double_dash (t : String) :
    ¬ (['-', '-'] <:+: sanitizeDraftStage t) := by
  intro hinf
  have hch := chain_collapseRunsAux (fun c => c == '-') '-'
    ((stripWS t.data).map (fun c => if reservedChars.contains c then '-' else c)) false
  have hinf2 : sanitizeDraftStage t <:+:
      collapseRuns (fun c => c == '-') '-'
        ((stripWS t.data).map (fun c => if reservedChars.contains c then '-' else c)) := by
    rcases stripBy_decomp (fun c => c == '-')
      (collapseRuns (fun c => c == '-') '-'
        ((stripWS t.data).map (fun c => if reservedChars.contains c then '-' else c))) with
      ⟨a, b, hm, _, _⟩
    exact ⟨a, b, hm.symm⟩
  have hch2 := hch.infix (hinf.trans hinf2)
  exact (List.chain'_cons.mp hch2).1 ⟨by decide, by decide⟩

theorem sanitizeDraftStage_ends (t : String) :
    ((sanitizeDraftStage t).head? ≠ some '-') ∧ ((sanitizeDraftStage t).getLast? ≠ some '-') := by
  constructor
  · intro h
    have := stripBy_head_not (fun c => c == '-') _ _ h
    simp at this
  · intro h
    have := stripBy_getLast_not (fun c => c == '-') _ _ h
    simp at this

theorem sanitize_filename_draft_ne_empty (t : String) : sanitize_filename_draft t ≠ "" := by
  rw [sanitize_filename_draft]
  by_cases h1 : (stripWS t.data).isEmpty
  · rw [if_pos h1]; decide
  · rw [if_neg h1]
    by_cases h2 : (sanitizeDraftStage t).isEmpty
    · rw [if_pos h2]; decide
    · rw [if_neg h2]
      intro he
      have : (sanitizeDraftStage t) = [] := congrArg String.data he
      rw [this] at h2
      exact h2 rfl

theorem sanitize_filename_draft_cases (t : String) :
    sanitize_filename_draft t = "Unknown" ∨
      (sanitize_filename_draft t).data = sanitizeDraftStage t := by
  rw [sanitize_filename_draft]
  by_cases h1 : (stripWS t.data).isEmpty
  · rw [if_pos h1]; exact Or.inl rfl
  · rw [if_neg h1]
    by_cases h2 : (sanitizeDraftStage t).isEmpty
    · rw [if_pos h2]; exact Or.inl rfl
    · rw [if_neg h2]; exact Or.inr rfl

/-- C6 counterexample: the claim says the group-label sanitizer replaces the
reserved characters with a dash; `io_utils.sanitize_filename` — the sanitizer
the exporters use — maps "Sales/Marketing" to "Sales_Marketing": the slash
becomes an underscore and the result contains no dash at all. -/
theorem claim_C6_counterexample :
    sanitize_filename "Sales/Marketing" = "Sales_Marketing" ∧
    '-' ∉ (sanitize_filename "Sales/Marketing").data ∧
    '_' ∈ (sanitize_filename "Sales/Marketing").data ∧
    '/' ∉ (sanitize_filename "Sales/Marketing").data := by decide

/-- C6 amended: `io_utils.sanitize_filename` replaces every reserved
character (so none survives), truncates to at most 200 characters, and
substitutes "Unknown" for an empty result (never returning ""); the
standalone script's `sanitize_filename` replaces reserved characters with a
dash, collapses repeated dashes, trims leading and trailing dashes, and
substitutes "Unknown" when empty (without truncating); in both, the output
for "Sales/Marketing" contains no slash. -/
theorem claim_C6_amended :
    (∀ t : String, ∀ c ∈ (sanitize_filename t).data, c ∉ reservedChars) ∧
    (∀ t : String, (sanitize_filename t).data.length ≤ 200) ∧
    (∀ t : String, sanitize_filename t ≠ "") ∧
    (∀ t : String, ∀ c ∈ (sanitize_filename_draft t).data, c ∉ reservedChars) ∧
    (∀ t : String, ¬ (['-', '-'] <:+: (sanitize_filename_draft t).data)) ∧
    (∀ t : String, (sanitize_filename_draft t).data.head? ≠ some '-' ∧
       (sanitize_filename_draft t).data.getLast? ≠ some '-') ∧
    (∀ t : String, sanitize_filename_draft t ≠ "") ∧
    sanitize_filename "Sales/Marketing" = "Sales_Marketing" ∧
    sanitize_filename_draft "Sales/Marketing" = "Sales-Marketing" := by
  refine ⟨sanitize_filename_no_reserved, sanitize_filename_length_le,
    sanitize_filename_ne_empty, ?_, ?_, ?_,
    sanitize_filename_draft_ne_empty, by decide, by decide⟩
  · intro t
    rcases sanitize_filename_draft_cases t with hcase | hcase
    · rw [hcase]; decide
    · rw [hcase]; exact sanitizeDraftStage_no_reserved t
  · intro t
    rcases sanitize_filename_draft_cases t with hcase | hcase
    · rw [hcase]; decide
    · rw [hcase]; exact sanitizeDraftStage_no_double_dash t
  · intro t
    rcases sanitize_filename_draft_cases t with hcase | hcase
    · rw [hcase]
      exact ⟨by decide, by decide⟩
    · rw [hcase]; exact sanitizeDraftStage_ends t

theorem gufAux_eq_some (fs : List String) (stem ext : String) :
    ∀ (fuel n0 : Nat) (p : String), gufAux fs stem ext fuel n0 = some p ↔
      ∃ n, n0 ≤ n ∧ n < n0 + fuel ∧ p = stem ++ " #" ++ toString n ++ ext ∧
        (stem ++ " #" ++ toString n ++ ext) ∉ fs ∧
        ∀ m, n0 ≤ m → m < n → (stem ++ " #" ++ toString m ++ ext) ∈ fs := by
  intro fuel
  induction fuel with
  | zero =>
    intro n0 p
    simp only [gufAux]
    constructor
    · intro h; cases h
    · rintro ⟨n, h1, h2, _⟩; omega
  | succ fuel ih =>
    intro n0 p
    simp only [gufAux]
    by_cases hc : fs.contains (stem ++ " #" ++ toString n0 ++ ext)
    · rw [if_pos hc]
      rw [ih (n0 + 1) p]
      constructor
      · rintro ⟨n, h1, h2, h3, h4, h5⟩
        refine ⟨n, by omega, by omega, h3, h4, ?_⟩
        intro m hm1 hm2
        rcases Nat.eq_or_lt_of_le hm1 with he | hl
        · rw [← he]; exact List.elem_iff.mp hc
        · exact h5 m hl hm2
      · rintro ⟨n, h1, h2, h3, h4, h5⟩
        have hne : n ≠ n0 := by
          intro he
          rw [he] at h4
          exact h4 (List.elem_iff.mp hc)
        exact ⟨n, by omega, by omega, h3, h4, fun m hm1 hm2 => h5 m (by omega) hm2⟩
    · rw [if_neg hc]
      constructor
      · intro h
        refine ⟨n0, le_refl n0, by omega, (Option.some.inj h).symm, ?_, ?_⟩
        · intro hmem; exact hc (List.elem_iff.mpr hmem)
        · intro m hm1 hm2; omega
      · rintro ⟨n, h1, h2, h3, h4, h5⟩
        have hn : n = n0 := by
          by_contra hne
          exact hc (List.elem_iff.mpr (h5 n0 (le_refl n0) (by omega)))
        rw [hn] at h3
        rw [h3]

/-- C7: `generate_unique_filename` returns the base path when no file exists
there; otherwise it scans n = 2, 3, ... upward and returns the first
"stem #n" candidate not present; any returned path never names an existing
file.  The unbounded `while True` loop is modelled with explicit fuel; the
characterisation holds for every fuel, and the concrete conjunct replays the
"Sales - SG&A Summary.xlsx" collision. -/
theorem claim_C7 :
    (∀ (fs : List String) (stem ext : String) (fuel : Nat),
      ((stem ++ ext) ∉ fs → generate_unique_filename fs stem ext fuel = some (stem ++ ext)) ∧
      (∀ p, generate_unique_filename fs stem ext fuel = some p → p ∉ fs) ∧
      ((stem ++ ext) ∈ fs →
        ∀ p, generate_unique_filename fs stem ext fuel = some p ↔
          ∃ n, 2 ≤ n ∧ n < 2 + fuel ∧ p = stem ++ " #" ++ toString n ++ ext ∧
            (stem ++ " #" ++ toString n ++ ext) ∉ fs ∧
            ∀ m, 2 ≤ m → m < n → (stem ++ " #" ++ toString m ++ ext) ∈ fs)) ∧
    generate_unique_filename ["Sales - SG&A Summary.xlsx"] "Sales - SG&A Summary" ".xlsx" 1
      = some "Sales - SG&A Summary #2.xlsx" := by
  refine ⟨?_, by decide⟩
  intro fs stem ext fuel
  refine ⟨?_, ?_, ?_⟩
  · intro hni
    rw [generate_unique_filename, if_neg (fun hcont => hni (List.elem_iff.mp hcont))]
  · intro p hp
    rw [generate_unique_filename] at hp
    by_cases hc : fs.contains (stem ++ ext)
    · rw [if_pos hc] at hp
      rcases (gufAux_eq_some fs stem ext fuel 2 p).mp hp with ⟨n, _, _, h3, h4, _⟩
      rw [h3]; exact h4
    · rw [if_neg hc] at hp
      rw [← Option.some.inj hp]
      intro hmem
      exact hc (List.elem_iff.mpr hmem)
  · intro hmem p
    rw [generate_unique_filename, if_pos (List.elem_iff.mpr hmem)]
    exact gufAux_eq_some fs stem ext fuel 2 p

/-! ### `sga_splitter.exporters`: row filtering and the two export modes -/

/-- pandas `df[dp_col] == group` for one cell against a string group label:
object-dtype equality, so only an equal string matches (`NaN` and numbers
compare unequal to a string). -/
def pandasEqStr (g : String) : CellValue → Bool
  | .vStr s => s == g
  | _ => false

/-- The number of rows `export_fast`'s filter `df[df[dp_col] == group]`
selects, given the grouping column. -/
def fastCount (col : List CellValue) (g : String) : Nat :=
  col.countP (pandasEqStr g)

/-- `str(cell_value).strip()`. -/
def trimmedCellStr (v : CellValue) : String :=
  String.mk (stripWS v.pyStr.data)

/-- `export_clone`'s row test: `cell_value is not None and
str(cell_value).strip() == group`, reading the grouping cell of a row. -/
def rowMatchesGroup (dp : Nat) (g : String) (row : List CellValue) : Bool :=
  !(row.getD dp CellValue.vNone == CellValue.vNone) &&
    (trimmedCellStr (row.getD dp CellValue.vNone) == g)

/-- `exporters._should_skip_row_for_group`: `True` when the cell is `None`
or its trimmed string differs from the target group. -/
def _should_skip_row_for_group (row : List CellValue) (dp : Nat) (g : String) : Bool :=
  if row.getD dp CellValue.vNone == CellValue.vNone then true
  else !(trimmedCellStr (row.getD dp CellValue.vNone) == g)

/-- The number of matching rows `export_clone` counts for a group, scanning
the (0-based) data rows `hr+1 .. rows.length-1`. -/
def export_clone_rowCount (rows : List (List CellValue)) (hr dp : Nat) (g : String) : Nat :=
  ((List.range' (hr + 1) (rows.length - (hr + 1))).filter
    (fun i => rowMatchesGroup dp g (rows.getD i []))).length

/-- `rows_to_delete` of `export_clone`: the non-matching data row indices,
in ascending scan order. -/
def export_clone_rowsToDelete (rows : List (List CellValue)) (hr dp : Nat) (g : String) :
    List Nat :=
  (List.range' (hr + 1) (rows.length - (hr + 1))).filter
    (fun i => !(rowMatchesGroup dp g (rows.getD i [])))

/-- The surviving rows of a clone export for one group: delete the
non-matching data rows from the bottom to the top. -/
def export_clone_rows (rows : List (List CellValue)) (hr dp : Nat) (g : String) :
    List (List CellValue) :=
  deleteIdxsDesc rows (export_clone_rowsToDelete rows hr dp g).reverse

/-- One manifest record (group, output path, row count, mode). -/
structure ManifestEntry where
  group : String
  output_path : String
  row_count : Nat
  mode : String
deriving DecidableEq, Repr

/-- `exporters.export_fast` per-group loop, with the try/except around the
file write abstracted into the `writeOk` oracle: zero matching rows skips
the group, a failed write skips the group, a successful write appends
exactly one manifest entry. -/
def export_fast (col : List CellValue) (writeOk : String → Bool) : List String → List ManifestEntry
  | [] => []
  | g :: gs =>
    if fastCount col g = 0 then export_fast col writeOk gs
    else if writeOk g then
      { group := g, output_path := sanitize_filename g ++ " - SG&A Summary.xlsx",
        row_count := fastCount col g, mode := "fast" } :: export_fast col writeOk gs
    else export_fast col writeOk gs

/-- `exporters.export_clone` per-group loop, same skip/append structure with
the clone-mode row count. -/
def export_clone (rows : List (List CellValue)) (hr dp : Nat) (writeOk : String → Bool) :
    List String → List ManifestEntry
  | [] => []
  | g :: gs =>
    if export_clone_rowCount rows hr dp g = 0 then export_clone rows hr dp writeOk gs
    else if writeOk g then
      { group := g, output_path := sanitize_filename g ++ " - SG&A Summary.xlsx",
        row_count := export_clone_rowCount rows hr dp g, mode := "clone" }
        :: export_clone rows hr dp writeOk gs
    else export_clone rows hr dp writeOk gs

/-- The clone-mode comparison applied cell-wise to the grouping column. -/
def cloneCount (col : List CellValue) (g : String) : Nat :=
  col.countP (fun v => !(v == CellValue.vNone) && (trimmedCellStr v == g))

/-- C1 counterexample: on the column with the single cell " Sales " the
collector produces the group "Sales" (it trims); `export_fast`'s equality
filter then matches 0 rows while `export_clone`'s trimmed comparison
matches 1, so the two modes record different row_counts. -/
theorem claim_C1_counterexample :
    collect_groups [CellValue.vStr " Sales "] true false false = ["Sales"] ∧
    fastCount [CellValue.vStr " Sales "] "Sales" = 0 ∧
    cloneCount [CellValue.vStr " Sales "] "Sales" = 1 := by decide

/-- C1 amended: when every cell of the grouping column is null or a string
equal to its own whitespace-trim (no padded strings, no numeric cells),
`export_fast`'s equality filter and `export_clone`'s trimmed comparison
select the same number of rows for every group label. -/
theorem claim_C1_amended (col : List CellValue)
    (hcells : ∀ v ∈ col, v = CellValue.vNone ∨
      ∃ s : String, v = CellValue.vStr s ∧ stripWS s.data = s.data) :
    ∀ g : String, fastCount col g = cloneCount col g := by
  intro g
  induction col with
  | nil => rfl
  | cons v vs ih =>
    have hv := hcells v (List.mem_cons_self v vs)
    have ihs := ih (fun w hw => hcells w (List.mem_cons_of_mem v hw))
    rw [fastCount, cloneCount, List.countP_cons, List.countP_cons]
    rw [fastCount, cloneCount] at ihs
    rw [ihs]
    congr 1
    rcases hv with hv | ⟨s, hv, hs⟩
    · rw [hv]; rfl
    · rw [hv]
      have h1 : pandasEqStr g (CellValue.vStr s) = (s == g) := rfl
      have h2 : trimmedCellStr (CellValue.vStr s) = s := by
        show String.mk (stripWS s.data) = s
        rw [hs]
      rw [h1]
      show _ = (if (!(CellValue.vStr s == CellValue.vNone) && (trimmedCellStr (CellValue.vStr s) == g)) = true then 1 else 0)
      rw [h2]
      rfl

theorem claim_C1_amended_witness :
    fastCount [CellValue.vStr "Sales", CellValue.vNone] "Sales" =
      cloneCount [CellValue.vStr "Sales", CellValue.vNone] "Sales" :=
  claim_C1_amended [CellValue.vStr "Sales", CellValue.vNone]
    (by
      intro v hv
      rcases List.mem_cons.mp hv with h | h
      · exact Or.inr ⟨"Sales", h, by decide⟩
      · rcases List.mem_cons.mp h with h' | h'
        · exact Or.inl h'
        · exact absurd h' (List.not_mem_nil v))
    "Sales"

/-- C4: for every group G, the clone-mode output sheet consists of exactly
the rows up to and including the header followed by those data rows whose
grouping cell is non-null and, as a trimmed string, equals G exactly; a
null grouping cell never matches any group, the empty-string group
included (both in `export_clone`'s inline test and in
`_should_skip_row_for_group`). -/
theorem claim_C4 :
    ∀ (rows : List (List CellValue)) (hr dp : Nat) (g : String),
      (export_clone_rows rows hr dp g =
        rows.take (hr + 1) ++ (rows.drop (hr + 1)).filter (rowMatchesGroup dp g)) ∧
      (∀ row : List CellValue, row.getD dp CellValue.vNone = CellValue.vNone →
        rowMatchesGroup dp g row = false ∧ _should_skip_row_for_group row dp g = true) := by
  intro rows hr dp g
  constructor
  · have hpw : (export_clone_rowsToDelete rows hr dp g).reverse.Pairwise (· > ·) := by
      rw [List.pairwise_reverse]
      exact List.Pairwise.filter _ (List.pairwise_lt_range' (hr + 1) (rows.length - (hr + 1)))
    rw [export_clone_rows, deleteIdxsDesc_eq_filterIdx _ rows hpw]
    apply filterIdx_split ([] : List CellValue) rows (hr + 1) _ (rowMatchesGroup dp g)
    · intro j hj
      have hnot : j ∉ (export_clone_rowsToDelete rows hr dp g).reverse := by
        intro hmem
        rw [List.mem_reverse, export_clone_rowsToDelete, List.mem_filter,
          List.mem_range'_1] at hmem
        omega
      simp [hnot]
    · intro j hj1 hj2
      by_cases hq : rowMatchesGroup dp g (rows.getD j [])
      · have hnot : j ∉ (export_clone_rowsToDelete rows hr dp g).reverse := by
          intro hmem
          rw [List.mem_reverse, export_clone_rowsToDelete, List.mem_filter] at hmem
          rw [hq] at hmem
          simp at hmem
        simp only [hnot, decide_False, Bool.not_false]
        exact hq.symm
      · have hmem : j ∈ (export_clone_rowsToDelete rows hr dp g).reverse := by
          rw [List.mem_reverse, export_clone_rowsToDelete, List.mem_filter, List.mem_range'_1]
          exact ⟨by omega, by rw [Bool.eq_false_iff.mpr hq]; rfl⟩
        simp only [hmem, decide_True, Bool.not_true]
        exact (Bool.eq_false_iff.mpr hq).symm
  · intro row hnone
    constructor
    · rw [rowMatchesGroup, hnone]
      simp
    · rw [_should_skip_row_for_group, hnone]
      simp

/-- `str(cell.value or "").strip().lower()` for a header cell. -/
def Sheet.headerTextLower (s : Sheet) (hr c : Nat) : List Char :=
  lowerL (stripWS (s.cell hr c).pyStrOrEmpty.data)

/-- The removal test of `_identify_columns_to_remove`: some pattern is a
substring of the lowered header, or it starts with "unnamed", or contains a
compound project/department label. -/
def shouldRemoveHeader (patterns : List String) (hv : List Char) : Bool :=
  patterns.any (fun p =>
    subL (lowerL p.data) hv || prefL "unnamed".data hv ||
    subL "project/department".data hv || subL "department/project".data hv)

/-- `exporters._identify_columns_to_remove`: scan columns `0..max_col-1`,
never marking the preserved column, marking those whose header matches. -/
def _identify_columns_to_remove (s : Sheet) (hr : Nat) (patterns : List String)
    (preserve : Option Nat) : List Nat :=
  if patterns.isEmpty then []
  else (List.range s.maxCol).filter (fun c =>
    !(preserve == some c) && shouldRemoveHeader patterns (s.headerTextLower hr c))

/-- `export_clone_multi_sheet`'s adjustment: the protected column's index
minus the number of removed indices below it. -/
def adjusted_split_col_idx (removed : List Nat) (orig : Nat) : Nat :=
  orig - (removed.filter (fun c => decide (c < orig))).length

/-- The per-row effect of `delete_cols` applied from the highest column
index to the lowest (`sorted(columns_to_remove, reverse=True)`). -/
def delete_cols_row (row : List CellValue) (removed : List Nat) : List CellValue :=
  deleteIdxsDesc row (sortLe (fun a b => decide (a ≤ b)) removed).reverse

theorem sortLe_eq_self (le : α → α → Bool) :
    ∀ l : List α, l.Pairwise (fun a b => le a b = true) → sortLe le l = l := by
  intro l
  induction l with
  | nil => intro _; rfl
  | cons a as ih =>
    intro h
    rcases List.pairwise_cons.mp h with ⟨ha, has⟩
    show insertLe le a (sortLe le as) = a :: as
    rw [ih has]
    cases as with
    | nil => rfl
    | cons b bs =>
      show (if le a b then a :: b :: bs else b :: insertLe le a bs) = a :: b :: bs
      rw [if_pos (ha b (List.mem_cons_self b bs))]

theorem countP_range_mem (rem : List Nat) (hnd : rem.Nodup) (n : Nat) :
    (List.range n).countP (fun j => decide (j ∈ rem)) =
      (rem.filter (fun x => decide (x < n))).length := by
  rw [List.countP_eq_length_filter]
  apply List.Perm.length_eq
  apply (List.perm_ext_iff_of_nodup ((List.nodup_range n).filter _) (hnd.filter _)).mpr
  intro a
  rw [List.mem_filter, List.mem_filter, List.mem_range]
  constructor
  · rintro ⟨h1, h2⟩
    exact ⟨by simpa using h2, by simpa using h1⟩
  · rintro ⟨h1, h2⟩
    exact ⟨by simpa using h2, by simpa using h1⟩

/-- C5: the pruner never marks the protected grouping column, even when its
header matches a removal pattern; deleting the marked columns from the
highest index to the lowest keeps exactly the unmarked positions; and the
protected column lands at its original index minus the number of removed
indices below it. -/
theorem claim_C5 (s : Sheet) (hr : Nat) (patterns : List String) (pcol : Nat)
    (row : List CellValue) (hlen : row.length = s.maxCol) (hpc : pcol < s.maxCol) :
    pcol ∉ _identify_columns_to_remove s hr patterns (some pcol) ∧
    delete_cols_row row (_identify_columns_to_remove s hr patterns (some pcol)) =
      filterIdx (fun j => !(decide (j ∈ _identify_columns_to_remove s hr patterns (some pcol))))
        row ∧
    (delete_cols_row row (_identify_columns_to_remove s hr patterns (some pcol))).getD
        (adjusted_split_col_idx (_identify_columns_to_remove s hr patterns (some pcol)) pcol)
        CellValue.vNone
      = row.getD pcol CellValue.vNone := by
  have hnotin : pcol ∉ _identify_columns_to_remove s hr patterns (some pcol) := by
    rw [_identify_columns_to_remove]
    by_cases hp : patterns.isEmpty
    · rw [if_pos hp]; exact List.not_mem_nil pcol
    · rw [if_neg hp]
      intro hmem
      rcases List.mem_filter.mp hmem with ⟨_, hcond⟩
      rw [Bool.and_eq_true] at hcond
      have := hcond.1
      simp at this
  have hsorted :
      sortLe (fun a b => decide (a ≤ b)) (_identify_columns_to_remove s hr patterns (some pcol))
        = _identify_columns_to_remove s hr patterns (some pcol) := by
    apply sortLe_eq_self
    have hlt : (_identify_columns_to_remove s hr patterns (some pcol)).Pairwise (· < ·) := by
      rw [_identify_columns_to_remove]
      by_cases hp : patterns.isEmpty
      · rw [if_pos hp]; exact List.Pairwise.nil
      · rw [if_neg hp]
        exact List.Pairwise.filter _ (List.pairwise_lt_range s.maxCol)
    exact hlt.imp (fun hab => by simp [Nat.le_of_lt hab])
  have hnodup : (_identify_columns_to_remove s hr patterns (some pcol)).Nodup := by
    rw [_identify_columns_to_remove]
    by_cases hp : patterns.isEmpty
    · rw [if_pos hp]; exact List.nodup_nil
    · rw [if_neg hp]
      exact (List.nodup_range s.maxCol).filter _
  have hpwrev :
      (_identify_columns_to_remove s hr patterns (some pcol)).reverse.Pairwise (· > ·) := by
    rw [List.pairwise_reverse]
    rw [_identify_columns_to_remove]
    by_cases hp : patterns.isEmpty
    · rw [if_pos hp]; exact List.Pairwise.nil
    · rw [if_neg hp]
      exact List.Pairwise.filter _ (List.pairwise_lt_range s.maxCol)
  have hdel : delete_cols_row row (_identify_columns_to_remove s hr patterns (some pcol)) =
      filterIdx (fun j => !(decide (j ∈ _identify_columns_to_remove s hr patterns (some pcol))))
        row := by
    rw [delete_cols_row, hsorted, deleteIdxsDesc_eq_filterIdx _ row hpwrev]
    apply filterIdxFrom_congr
    intro j
    by_cases hj : j ∈ _identify_columns_to_remove s hr patterns (some pcol)
    · simp [hj]
    · simp [hj]
  refine ⟨hnotin, hdel, ?_⟩
  rw [hdel]
  have hcnt : adjusted_split_col_idx (_identify_columns_to_remove s hr patterns (some pcol)) pcol
      = (List.range pcol).countP
          (fun j => !(decide (j ∈ _identify_columns_to_remove s hr patterns (some pcol)))) := by
    rw [adjusted_split_col_idx]
    have hsplit := List.length_eq_countP_add_countP
      (fun j => decide (j ∈ _identify_columns_to_remove s hr patterns (some pcol)))
      (List.range pcol)
    rw [List.length_range] at hsplit
    have hmemcnt := countP_range_mem _ hnodup pcol
    have hcc : (List.range pcol).countP
        (fun j => !(decide (j ∈ _identify_columns_to_remove s hr patterns (some pcol))))
        = (List.range pcol).countP
          (fun a => decide ¬(decide (a ∈ _identify_columns_to_remove s hr patterns (some pcol)) = true)) := by
      apply List.countP_congr
      intro x _
      by_cases hx : x ∈ _identify_columns_to_remove s hr patterns (some pcol) <;> simp [hx]
    rw [hcc, ← hmemcnt]
    omega
  rw [hcnt]
  apply filterIdx_getD_position
  · omega
  · simp [hnotin]

/-- A concrete worksheet for the C5 witness: header row 0 holds
"Unnamed: 0", "Department", "Cost"; the protected grouping column is 1. -/
def sheetC5 : Sheet :=
  Sheet.mk 1 3
    [[CellValue.vStr "Unnamed: 0", CellValue.vStr "Department", CellValue.vStr "Cost"]]

def rowC5 : List CellValue :=
  [CellValue.vInt 7, CellValue.vStr "Sales", CellValue.vInt 100]

theorem claim_C5_witness :
    1 ∉ _identify_columns_to_remove sheetC5 0 ["unnamed", "project/department"] (some 1) ∧
    delete_cols_row rowC5 (_identify_columns_to_remove sheetC5 0 ["unnamed", "project/department"] (some 1)) =
      filterIdx
        (fun j => !(decide (j ∈ _identify_columns_to_remove sheetC5 0 ["unnamed", "project/department"] (some 1))))
        rowC5 ∧
    (delete_cols_row rowC5 (_identify_columns_to_remove sheetC5 0 ["unnamed", "project/department"] (some 1))).getD
        (adjusted_split_col_idx (_identify_columns_to_remove sheetC5 0 ["unnamed", "project/department"] (some 1)) 1)
        CellValue.vNone
      = rowC5.getD 1 CellValue.vNone :=
  claim_C5 sheetC5 0 ["unnamed", "project/department"] 1 rowC5 (by decide) (by decide)

example :
    _identify_columns_to_remove sheetC5 0 ["unnamed", "project/department"] (some 1) = [0] := by
  decide

example : delete_cols_row rowC5 [0] = [CellValue.vStr "Sales", CellValue.vInt 100] := by decide

example :
    adjusted_split_col_idx
      (_identify_columns_to_remove sheetC5 0 ["unnamed", "project/department"] (some 1)) 1 = 0 := by
  decide

/-- C9: a group whose export terminally fails — zero matching rows or a
write error — contributes no manifest entry and does not abort the batch:
the manifest is exactly one entry per successful group, in group order, in
both fast and clone mode. -/
theorem claim_C9 :
    ∀ (col : List CellValue) (rows : List (List CellValue)) (hr dp : Nat)
      (writeOk : String → Bool) (groups : List String),
      (export_fast col writeOk groups =
        (groups.filter (fun g => decide (fastCount col g ≠ 0) && writeOk g)).map
          (fun g =>
            { group := g, output_path := sanitize_filename g ++ " - SG&A Summary.xlsx",
              row_count := fastCount col g, mode := "fast" })) ∧
      (export_clone rows hr dp writeOk groups =
        (groups.filter (fun g => decide (export_clone_rowCount rows hr dp g ≠ 0) && writeOk g)).map
          (fun g =>
            { group := g, output_path := sanitize_filename g ++ " - SG&A Summary.xlsx",
              row_count := export_clone_rowCount rows hr dp g, mode := "clone" })) ∧
      ((export_fast col writeOk groups).length =
        groups.countP (fun g => decide (fastCount col g ≠ 0) && writeOk g)) ∧
      ((export_clone rows hr dp writeOk groups).length =
        groups.countP (fun g => decide (export_clone_rowCount rows hr dp g ≠ 0) && writeOk g)) ∧
      (∀ g ∈ groups, fastCount col g = 0 ∨ writeOk g = false →
        ∀ e ∈ export_fast col writeOk groups, e.group ≠ g) ∧
      (∀ g ∈ groups, export_clone_rowCount rows hr dp g = 0 ∨ writeOk g = false →
        ∀ e ∈ export_clone rows hr dp writeOk groups, e.group ≠ g) := by
  intro col rows hr dp writeOk groups
  have hfast : ∀ gs : List String, export_fast col writeOk gs =
      (gs.filter (fun g => decide (fastCount col g ≠ 0) && writeOk g)).map
        (fun g =>
          { group := g, output_path := sanitize_filename g ++ " - SG&A Summary.xlsx",
            row_count := fastCount col g, mode := "fast" }) := by
    intro gs
    induction gs with
    | nil => rfl
    | cons g gs ih =>
      rw [export_fast, List.filter_cons]
      by_cases h0 : fastCount col g = 0
      · rw [if_pos h0]
        have : (decide (fastCount col g ≠ 0) && writeOk g) = false := by simp [h0]
        rw [this]
        simp only [Bool.false_eq_true, if_false]
        exact ih
      · rw [if_neg h0]
        by_cases hw : writeOk g
        · have : (decide (fastCount col g ≠ 0) && writeOk g) = true := by simp [h0, hw]
          rw [if_pos hw, this, if_pos rfl, List.map_cons, ih]
        · have : (decide (fastCount col g ≠ 0) && writeOk g) = false := by simp [hw]
          rw [if_neg hw, this]
          simp only [Bool.false_eq_true, if_false]
          exact ih
  have hclone : ∀ gs : List String, export_clone rows hr dp writeOk gs =
      (gs.filter (fun g => decide (export_clone_rowCount rows hr dp g ≠ 0) && writeOk g)).map
        (fun g =>
          { group := g, output_path := sanitize_filename g ++ " - SG&A Summary.xlsx",
            row_count := export_clone_rowCount rows hr dp g, mode := "clone" }) := by
    intro gs
    induction gs with
    | nil => rfl
    | cons g gs ih =>
      rw [export_clone, List.filter_cons]
      by_cases h0 : export_clone_rowCount rows hr dp g = 0
      · rw [if_pos h0]
        have : (decide (export_clone_rowCount rows hr dp g ≠ 0) && writeOk g) = false := by
          simp [h0]
        rw [this]
        simp only [Bool.false_eq_true, if_false]
        exact ih
      · rw [if_neg h0]
        by_cases hw : writeOk g
        · have : (decide (export_clone_rowCount rows hr dp g ≠ 0) && writeOk g) = true := by
            simp [h0, hw]
          rw [if_pos hw, this, if_pos rfl, List.map_cons, ih]
        · have : (decide (export_clone_rowCount rows hr dp g ≠ 0) && writeOk g) = false := by
            simp [hw]
          rw [if_neg hw, this]
          simp only [Bool.false_eq_true, if_false]
          exact ih
  refine ⟨hfast groups, hclone groups, ?_, ?_, ?_, ?_⟩
  · rw [hfast groups, List.length_map, List.countP_eq_length_filter]
  · rw [hclone groups, List.length_map, List.countP_eq_length_filter]
  · intro g _ hfail e he heq
    rw [hfast groups] at he
    rcases List.mem_map.mp he with ⟨g', hg', hge⟩
    rcases List.mem_filter.mp hg' with ⟨_, hcond⟩
    have hgg : g' = g := by rw [← heq, ← hge]
    rw [hgg] at hcond
    rw [Bool.and_eq_true] at hcond
    rcases hfail with hfail | hfail
    · have := hcond.1; simp [hfail] at this
    · have := hcond.2; rw [hfail] at this; cases this
  · intro g _ hfail e he heq
    rw [hclone groups] at he
    rcases List.mem_map.mp he with ⟨g', hg', hge⟩
    rcases List.mem_filter.mp hg' with ⟨_, hcond⟩
    have hgg : g' = g := by rw [← heq, ← hge]
    rw [hgg] at hcond
    rw [Bool.and_eq_true] at hcond
    rcases hfail with hfail | hfail
    · have := hcond.1; simp [hfail] at this
    · have := hcond.2; rw [hfail] at this; cases this

/-! ### `sga_splitter.detect`: sheet-name resolution

`difflib.SequenceMatcher.ratio` is a floating-point similarity; it is
abstracted here as a parameter `sim`, and the 0.6 threshold as the rational
3/5.  Everything else (keyword scoring, stable descending sort, tie-break,
fallbacks, error cases) is translated from the source. -/

def lowerStr (s : String) : String := String.mk (lowerL s.data)

def sga_keywords : List String := ["sg&a", "sga", "selling", "general", "administrative"]

def summary_keywords : List String := ["summary", "sum", "total", "consolidated"]

/-- `sga_score * 2 + summary_score` for one sheet name. -/
def keywordScore (name : String) : Nat :=
  (sga_keywords.countP (fun kw => subL kw.data (lowerL name.data))) * 2 +
    (summary_keywords.countP (fun kw => subL kw.data (lowerL name.data)))

/-- The `scored_sheets` list: names with a positive keyword score, in
workbook order. -/
def scoredSheets (sheetNames : List String) : List (String × Nat) :=
  sheetNames.filterMap (fun name =>
    if keywordScore name > 0 then some (name, keywordScore name) else none)

/-- The keyword branch of `_find_best_fuzzy_sheet`: stable descending sort
of `scored_sheets`, take the head; fall back to the first sheet. -/
def kwBest (sheetNames : List String) : String :=
  match (sortLe (fun a b : String × Nat => decide (b.2 ≤ a.2)) (scoredSheets sheetNames)).head? with
  | some p => p.1
  | none => sheetNames.headD ""

/-- `detect._find_best_fuzzy_sheet`. -/
def find_best_fuzzy_sheet (sim : String → String → ℚ) (sheetNames : List String)
    (requested : Option String) : String :=
  match requested with
  | some r =>
    if r ≠ "" then
      match (sortLe (fun a b : String × ℚ => decide (b.2 ≤ a.2))
          (sheetNames.map (fun name => (name, sim (lowerStr r) (lowerStr name))))).head? with
      | some p => if p.2 > 3 / 5 then p.1 else kwBest sheetNames
      | none => kwBest sheetNames
    else kwBest sheetNames
  | none => kwBest sheetNames

/-- `detect.find_target_sheet_name`; `Except.error` models `ValueError`. -/
def find_target_sheet_name (sim : String → String → ℚ) (sheetNames : List String)
    (requested : Option String) (fuzzy : Bool) : Except String String :=
  if sheetNames.isEmpty then Except.error "Workbook contains no sheets"
  else
    match requested with
    | none =>
      if fuzzy then Except.ok (find_best_fuzzy_sheet sim sheetNames none)
      else Except.ok (sheetNames.headD "")
    | some r =>
      if sheetNames.contains r then Except.ok r
      else if fuzzy then Except.ok (find_best_fuzzy_sheet sim sheetNames (some r))
      else Except.error "Sheet not found"

theorem headD_mem (names : List String) (hne : names ≠ []) : names.headD "" ∈ names := by
  cases names with
  | nil => exact absurd rfl hne
  | cons a as => exact List.mem_cons_self a as

theorem scoredSheets_fst_mem (sheetNames : List String) (p : String × Nat)
    (h : p ∈ scoredSheets sheetNames) : p.1 ∈ sheetNames ∧ p.2 = keywordScore p.1 ∧ p.2 > 0 := by
  rcases List.mem_filterMap.mp h with ⟨name, hname, hsome⟩
  by_cases hsc : keywordScore name > 0
  · rw [if_pos hsc] at hsome
    have h1 : name = p.1 := congrArg Prod.fst (Option.some.inj hsome)
    have h2 : keywordScore name = p.2 := congrArg Prod.snd (Option.some.inj hsome)
    rw [h1] at hname hsc h2
    exact ⟨hname, h2.symm, by omega⟩
  · rw [if_neg hsc] at hsome; cases hsome

theorem kwBest_mem (names : List String) (hne : names ≠ []) : kwBest names ∈ names := by
  rw [kwBest, sortLe_head]
  cases hfm : firstMaxBy (fun a b : String × Nat => decide (b.2 ≤ a.2)) (scoredSheets names) with
  | none => exact headD_mem names hne
  | some p => exact (scoredSheets_fst_mem names p (firstMaxBy_mem _ _ p hfm)).1

theorem find_best_fuzzy_mem (sim : String → String → ℚ) (names : List String)
    (reqOpt : Option String) (hne : names ≠ []) :
    find_best_fuzzy_sheet sim names reqOpt ∈ names := by
  cases reqOpt with
  | none => exact kwBest_mem names hne
  | some r =>
    show (if r ≠ "" then
        match (sortLe (fun a b : String × ℚ => decide (b.2 ≤ a.2))
            (names.map (fun name => (name, sim (lowerStr r) (lowerStr name))))).head? with
        | some p => if p.2 > 3 / 5 then p.1 else kwBest names
        | none => kwBest names
      else kwBest names) ∈ names
    by_cases hr : r ≠ ""
    · rw [if_pos hr]
      rw [sortLe_head]
      cases hfm : firstMaxBy (fun a b : String × ℚ => decide (b.2 ≤ a.2))
          (names.map (fun name => (name, sim (lowerStr r) (lowerStr name)))) with
      | none => exact kwBest_mem names hne
      | some p =>
        show (if p.2 > 3 / 5 then p.1 else kwBest names) ∈ names
        by_cases hth : p.2 > 3 / 5
        · rw [if_pos hth]
          have hmem := firstMaxBy_mem _ _ p hfm
          rcases List.mem_map.mp hmem with ⟨name, hname, heq⟩
          have : name = p.1 := congrArg Prod.fst heq
          rw [← this]; exact hname
        · rw [if_neg hth]; exact kwBest_mem names hne
    · rw [if_neg hr]; exact kwBest_mem names hne

theorem ftsn_none (sim : String → String → ℚ) (names : List String) (fuzzy : Bool) :
    find_target_sheet_name sim names none fuzzy =
      if names.isEmpty then Except.error "Workbook contains no sheets"
      else if fuzzy then Except.ok (find_best_fuzzy_sheet sim names none)
      else Except.ok (names.headD "") := rfl

theorem ftsn_some (sim : String → String → ℚ) (names : List String) (r : String) (fuzzy : Bool) :
    find_target_sheet_name sim names (some r) fuzzy =
      if names.isEmpty then Except.error "Workbook contains no sheets"
      else if names.contains r then Except.ok r
      else if fuzzy then Except.ok (find_best_fuzzy_sheet sim names (some r))
      else Except.error "Sheet not found" := rfl

theorem fbfs_some (sim : String → String → ℚ) (names : List String) (r : String) :
    find_best_fuzzy_sheet sim names (some r) =
      if r ≠ "" then
        match (sortLe (fun a b : String × ℚ => decide (b.2 ≤ a.2))
            (names.map (fun name => (name, sim (lowerStr r) (lowerStr name))))).head? with
        | some p => if p.2 > 3 / 5 then p.1 else kwBest names
        | none => kwBest names
      else kwBest names := rfl

theorem kwBest_of_fm_none (names : List String)
    (h : firstMaxBy (fun a b : String × Nat => decide (b.2 ≤ a.2)) (scoredSheets names) = none) :
    kwBest names = names.headD "" := by
  rw [kwBest, sortLe_head, h]

theorem kwBest_of_fm_some (names : List String) (p : String × Nat)
    (h : firstMaxBy (fun a b : String × Nat => decide (b.2 ≤ a.2)) (scoredSheets names) = some p) :
    kwBest names = p.1 := by
  rw [kwBest, sortLe_head, h]

/-- C8: with at least one sheet and fuzzy matching enabled,
`find_target_sheet_name` always returns a sheet name from the workbook.
When a name is requested, candidates are scored by string similarity to it
and the similarity winner is returned when it clears the 3/5 threshold.
Otherwise candidates are scored by keyword overlap, SG&A vocabulary
weighted twice plus summary vocabulary; the highest score wins with ties
broken by first occurrence, and when no candidate scores above zero the
first sheet is returned.  An error arises exactly when the workbook has
zero sheets, or when an exact name was requested with fuzzy disabled and
the name is absent. -/
theorem claim_C8 (sim : String → String → ℚ) (sheetNames : List String)
    (requested : Option String) (fuzzy : Bool) :
    ((∃ e, find_target_sheet_name sim sheetNames requested fuzzy = Except.error e) ↔
      (sheetNames = [] ∨ ∃ r, requested = some r ∧ fuzzy = false ∧ r ∉ sheetNames)) ∧
    (sheetNames ≠ [] → fuzzy = true →
      ∃ nm, find_target_sheet_name sim sheetNames requested fuzzy = Except.ok nm ∧
        nm ∈ sheetNames) ∧
    (∀ r p, requested = some r → fuzzy = true → r ≠ "" → r ∉ sheetNames →
      firstMaxBy (fun a b : String × ℚ => decide (b.2 ≤ a.2))
          (sheetNames.map (fun name => (name, sim (lowerStr r) (lowerStr name)))) = some p →
      p.2 > 3 / 5 →
      find_target_sheet_name sim sheetNames requested fuzzy = Except.ok p.1) ∧
    ((scoredSheets sheetNames = [] → kwBest sheetNames = sheetNames.headD "") ∧
      (∀ p, firstMaxBy (fun a b : String × Nat => decide (b.2 ≤ a.2))
          (scoredSheets sheetNames) = some p →
        kwBest sheetNames = p.1 ∧ p ∈ scoredSheets sheetNames ∧
        (∀ q ∈ scoredSheets sheetNames, q.2 ≤ p.2) ∧
        (∃ l1 l2, scoredSheets sheetNames = l1 ++ p :: l2 ∧ ∀ q ∈ l1, q.2 < p.2))) ∧
    (∀ q ∈ scoredSheets sheetNames,
      q.1 ∈ sheetNames ∧ q.2 = keywordScore q.1 ∧ 0 < q.2) := by
  refine ⟨?_, ?_, ?_, ⟨?_, ?_⟩, ?_⟩
  · constructor
    · rintro ⟨e, he⟩
      by_cases hemp : sheetNames.isEmpty
      · left; exact List.isEmpty_iff.mp hemp
      · right
        cases requested with
        | none =>
          rw [ftsn_none, if_neg hemp] at he
          cases fuzzy <;> simp at he
        | some r =>
          rw [ftsn_some, if_neg hemp] at he
          by_cases hcon : sheetNames.contains r
          · rw [if_pos hcon] at he; simp at he
          · rw [if_neg hcon] at he
            cases fuzzy
            · exact ⟨r, rfl, rfl, fun hm => hcon (List.elem_iff.mpr hm)⟩
            · simp at he
    · rintro (hnil | ⟨r, hreq, hfz, hnot⟩)
      · subst hnil; exact ⟨_, rfl⟩
      · subst hreq; subst hfz
        by_cases hemp : sheetNames.isEmpty
        · exact ⟨_, by rw [ftsn_some, if_pos hemp]⟩
        · have hcon : ¬ sheetNames.contains r = true :=
            fun hc => hnot (List.elem_iff.mp hc)
          exact ⟨_, by rw [ftsn_some, if_neg hemp, if_neg hcon,
            if_neg Bool.false_ne_true]⟩
  · intro hne hfz
    have hemp : ¬ sheetNames.isEmpty = true := by
      simpa [List.isEmpty_iff] using hne
    subst hfz
    cases requested with
    | none =>
      exact ⟨_, by rw [ftsn_none, if_neg hemp, if_pos rfl],
        find_best_fuzzy_mem sim sheetNames none hne⟩
    | some r =>
      by_cases hcon : sheetNames.contains r
      · exact ⟨r, by rw [ftsn_some, if_neg hemp, if_pos hcon],
          List.elem_iff.mp hcon⟩
      · exact ⟨_, by rw [ftsn_some, if_neg hemp, if_neg hcon, if_pos rfl],
          find_best_fuzzy_mem sim sheetNames (some r) hne⟩
  · intro r p hreq hfz hr hnot hfm hth
    subst hreq; subst hfz
    have hne : sheetNames ≠ [] := by
      intro h; subst h; simp [firstMaxBy] at hfm
    have hemp : ¬ sheetNames.isEmpty = true := by
      simpa [List.isEmpty_iff] using hne
    have hcon : ¬ sheetNames.contains r = true :=
      fun hc => hnot (List.elem_iff.mp hc)
    rw [ftsn_some, if_neg hemp, if_neg hcon, if_pos rfl, fbfs_some, if_pos hr,
      sortLe_head, hfm]
    show Except.ok (if p.2 > 3 / 5 then p.1 else kwBest sheetNames) = Except.ok p.1
    rw [if_pos hth]
  · intro hsc
    apply kwBest_of_fm_none
    rw [hsc]; rfl
  · intro p hfm
    refine ⟨kwBest_of_fm_some sheetNames p hfm, firstMaxBy_mem _ _ p hfm, ?_, ?_⟩
    · intro q hq
      have htrans : ∀ a b c : String × Nat, decide (b.2 ≤ a.2) = true →
          decide (c.2 ≤ b.2) = true → decide (c.2 ≤ a.2) = true := by
        intro a b c hab hbc
        exact decide_eq_true (le_trans (of_decide_eq_true hbc) (of_decide_eq_true hab))
      have htot : ∀ a b : String × Nat,
          decide (b.2 ≤ a.2) = true ∨ decide (a.2 ≤ b.2) = true := by
        intro a b
        rcases le_total a.2 b.2 with h | h
        · exact Or.inr (decide_eq_true h)
        · exact Or.inl (decide_eq_true h)
      exact of_decide_eq_true (firstMaxBy_ge _ htrans htot _ p hfm q hq)
    · rcases firstMaxBy_first _ _ p hfm with ⟨l1, l2, heq, hall⟩
      refine ⟨l1, l2, heq, ?_⟩
      intro q hq
      have h := hall q hq
      have : ¬ (p.2 ≤ q.2) := of_decide_eq_false h
      omega
  · intro q hq
    exact scoredSheets_fst_mem sheetNames q hq

/-! ### `sga_splitter.core.split_workbook_multi_sheet`

The per-sheet analysis (`_analyze_sheet_for_multi_processing`, whose
failures the source swallows with `continue`) and the per-group export
(`create_multi_sheet_files_per_group`) are abstracted as parameters
`analyze` (`none` models a raised exception) and `expf`; the sheet-count
guard and the control flow around them are translated from the source. -/

def sheetConfigs (sheetNames : List String) : List (String × String × List String) :=
  [(sheetNames.getD 0 "", "project", ["project", "proj"]),
   (sheetNames.getD 1 "", "department", ["department", "dept"]),
   (sheetNames.getD 2 "", "department", ["department", "dept"])]

def split_workbook_multi_sheet
    (analyze : String × String × List String → Option (List String))
    (expf : List String → List ManifestEntry)
    (sheetNames : List String) : Except String (List ManifestEntry) :=
  if sheetNames.length < 3 then
    Except.error "Workbook must have at least 3 sheets"
  else
    match (sheetConfigs sheetNames).filterMap analyze with
    | [] => Except.error "No sheets could be processed"
    | g :: gs => Except.ok (expf ((g :: gs).flatten.dedup))

/-- C10: with fewer than three sheets, `split_workbook_multi_sheet` raises
the sheet-count error; the result does not depend on the analysis or
export functions (they are never invoked), and no manifest-entry list is
ever returned for such a workbook. -/
theorem claim_C10
    (analyze analyze2 : String × String × List String → Option (List String))
    (expf expf2 : List String → List ManifestEntry)
    (sheetNames : List String) (h : sheetNames.length < 3) :
    split_workbook_multi_sheet analyze expf sheetNames =
      Except.error "Workbook must have at least 3 sheets" ∧
    split_workbook_multi_sheet analyze expf sheetNames =
      split_workbook_multi_sheet analyze2 expf2 sheetNames ∧
    ∀ entries, split_workbook_multi_sheet analyze expf sheetNames ≠ Except.ok entries := by
  have h1 : split_workbook_multi_sheet analyze expf sheetNames =
      Except.error "Workbook must have at least 3 sheets" := by
    rw [split_workbook_multi_sheet, if_pos h]
  have h2 : split_workbook_multi_sheet analyze2 expf2 sheetNames =
      Except.error "Workbook must have at least 3 sheets" := by
    rw [split_workbook_multi_sheet, if_pos h]
  refine ⟨h1, h1.trans h2.symm, ?_⟩
  intro entries hcontra
  rw [h1] at hcontra
  cases hcontra

theorem claim_C10_witness :
    ["Sheet1", "Sheet2"].length < 3 ∧
    split_workbook_multi_sheet (fun _ => none) (fun _ => []) ["Sheet1", "Sheet2"] =
      Except.error "Workbook must have at least 3 sheets" :=
  ⟨by decide,
    (claim_C10 (fun _ => none) (fun _ => none) (fun _ => []) (fun _ => [])
      ["Sheet1", "Sheet2"] (by decide)).1⟩
